import Mathlib

/-!
Shallow embedding of the ImGuiColorTextEdit text-editing engine
(TextEditor.h / TextEditor.cpp) and proofs about its text buffer,
coordinate conversion, cursor merging, undo history, visual-line
projection, search and bracket matching.

Glyphs are stored bytes, modelled as natural numbers below 256
(the C++ code stores one char per Glyph).  A Line is the list of its
glyph bytes and the buffer is the list of its lines.  Machine ints are
modelled as Nat except where the source can produce a negative value
(GetCharacterIndexFromColumn returns -1 for an out-of-range line), where
Int is used.  Tab size is a parameter (the editor clamps it to 1..8).
-/

namespace TextEditor

/-- Line and buffer types: a Line is an ordered sequence of glyph bytes. -/
abbrev Line := List Nat

abbrev Lines := List Line

/-- Embeds static int UTF8CharLength(char c): the byte length declared by a
UTF-8 lead byte. -/
def UTF8CharLength (c : Nat) : Nat :=
  if c &&& 0xFE = 0xFC then 6
  else if c &&& 0xFC = 0xF8 then 5
  else if c &&& 0xF8 = 0xF0 then 4
  else if c &&& 0xF0 = 0xE0 then 3
  else if c &&& 0xE0 = 0xC0 then 2
  else 1

theorem UTF8CharLength_pos (c : Nat) : 0 < UTF8CharLength c := by
  simp only [UTF8CharLength]
  split_ifs <;> omega

set_option maxRecDepth 8000 in
theorem UTF8CharLength_single : ∀ c, c < 192 → UTF8CharLength c = 1 := by decide

/-- Bytes whose declared UTF-8 length is one; buffers and texts made of such
bytes have every character index on a glyph boundary. -/
def SingleByte (c : Nat) : Prop := UTF8CharLength c = 1

instance (c : Nat) : Decidable (SingleByte c) := by
  unfold SingleByte; infer_instance

theorem singleByte_of_lt (c : Nat) (h : c < 192) : SingleByte c :=
  UTF8CharLength_single c h

/-- Embeds struct Coordinates: a (line, visual column) pair.  The source
stores ints with (-1,-1) as an Invalid sentinel; the claims only involve
well-formed nonnegative coordinates, modelled as Nat. -/
structure Coordinates where
  mLine : Nat
  mColumn : Nat
deriving DecidableEq

/-- Embeds Coordinates::operator< (lexicographic on line then column). -/
def Coordinates.lt (a o : Coordinates) : Bool :=
  if a.mLine ≠ o.mLine then a.mLine < o.mLine else a.mColumn < o.mColumn

/-- Embeds Coordinates::operator> . -/
def Coordinates.gt (a o : Coordinates) : Bool :=
  if a.mLine ≠ o.mLine then decide (a.mLine > o.mLine) else decide (a.mColumn > o.mColumn)

/-- Embeds Coordinates::operator<= . -/
def Coordinates.le (a o : Coordinates) : Bool :=
  if a.mLine ≠ o.mLine then a.mLine < o.mLine else a.mColumn ≤ o.mColumn

/-- Embeds Coordinates::operator>= . -/
def Coordinates.ge (a o : Coordinates) : Bool :=
  if a.mLine ≠ o.mLine then decide (a.mLine > o.mLine) else decide (a.mColumn ≥ o.mColumn)

/-- Embeds TextEditor::MoveCharIndexAndColumn for one line: advances the char
index by the UTF-8 length of the glyph at it and the column by one, or to the
next tab stop for a tab glyph. -/
def MoveCharIndexAndColumn (tab : Nat) (line : Line) (i c : Nat) : Nat × Nat :=
  let ch := line.getD i 0
  (i + UTF8CharLength ch, if ch = 9 then (c / tab) * tab + tab else c + 1)

/-- Loop of TextEditor::GetCharacterColumn: walk glyphs while i < aIndex and
i < line size, accumulating the column. -/
def gccGo (tab : Nat) (line : Line) (aIndex : Nat) (i c : Nat) : Nat :=
  if i < aIndex ∧ i < line.length then
    let s := MoveCharIndexAndColumn tab line i c
    gccGo tab line aIndex s.1 s.2
  else c
termination_by aIndex - i
decreasing_by
  have hpos := UTF8CharLength_pos (line.getD i 0)
  try simp only [MoveCharIndexAndColumn]
  omega

theorem gccGo_pos (tab : Nat) (line : Line) (aIndex i c : Nat)
    (h : i < aIndex ∧ i < line.length) :
    gccGo tab line aIndex i c =
      gccGo tab line aIndex (i + UTF8CharLength (line.getD i 0))
        (if line.getD i 0 = 9 then (c / tab) * tab + tab else c + 1) := by
  conv_lhs => rw [gccGo]
  rw [if_pos h]
  simp only [MoveCharIndexAndColumn]

theorem gccGo_neg (tab : Nat) (line : Line) (aIndex i c : Nat)
    (h : ¬ (i < aIndex ∧ i < line.length)) :
    gccGo tab line aIndex i c = c := by
  conv_lhs => rw [gccGo]
  rw [if_neg h]

/-- Embeds TextEditor::GetCharacterColumn (returns 0 for an out-of-range
line). -/
def GetCharacterColumn (tab : Nat) (lines : Lines) (aLine aIndex : Nat) : Nat :=
  if aLine ≥ lines.length then 0
  else gccGo tab (lines.getD aLine []) aIndex 0 0

/-- Embeds TextEditor::CharacterIndexToColumn, which forwards to
GetCharacterColumn. -/
def CharacterIndexToColumn (tab : Nat) (lines : Lines) (aLine aCharIndex : Nat) : Nat :=
  GetCharacterColumn tab lines aLine aCharIndex

/-- Loop of the default (aLimit == -1) branch of TextEditor::GetLineMaxColumn:
walk the whole line. -/
def glmcGo (tab : Nat) (line : Line) (i c : Nat) : Nat :=
  if i < line.length then
    let s := MoveCharIndexAndColumn tab line i c
    glmcGo tab line s.1 s.2
  else c
termination_by line.length - i
decreasing_by
  have hpos := UTF8CharLength_pos (line.getD i 0)
  try simp only [MoveCharIndexAndColumn]
  omega

theorem glmcGo_pos (tab : Nat) (line : Line) (i c : Nat) (h : i < line.length) :
    glmcGo tab line i c =
      glmcGo tab line (i + UTF8CharLength (line.getD i 0))
        (if line.getD i 0 = 9 then (c / tab) * tab + tab else c + 1) := by
  conv_lhs => rw [glmcGo]
  rw [if_pos h]
  simp only [MoveCharIndexAndColumn]

theorem glmcGo_neg (tab : Nat) (line : Line) (i c : Nat) (h : ¬ i < line.length) :
    glmcGo tab line i c = c := by
  conv_lhs => rw [glmcGo]
  rw [if_neg h]

/-- Embeds TextEditor::GetLineMaxColumn in its default aLimit == -1 form
(the form used by GetText and the visual-line projection). -/
def GetLineMaxColumn (tab : Nat) (lines : Lines) (aLine : Nat) : Nat :=
  if aLine ≥ lines.length then 0
  else glmcGo tab (lines.getD aLine []) 0 0

/-- Loop of TextEditor::GetCharacterIndexFromColumn: walk while the index is
inside the line and the column is below the target; when a step overshoots
the target column, lean left (index before the glyph) or right (after). -/
def gcifcGo (tab : Nat) (line : Line) (target : Nat) (aLeftSide : Bool)
    (i c : Nat) : Nat :=
  if i < line.length ∧ c < target then
    let s := MoveCharIndexAndColumn tab line i c
    if s.2 > target then (if aLeftSide then i else s.1)
    else gcifcGo tab line target aLeftSide s.1 s.2
  else i
termination_by line.length - i
decreasing_by
  have hpos := UTF8CharLength_pos (line.getD i 0)
  try simp only [MoveCharIndexAndColumn]
  omega

/-- Embeds TextEditor::GetCharacterIndexFromColumn; returns -1 for an
out-of-range line exactly as the source does. -/
def GetCharacterIndexFromColumn (tab : Nat) (lines : Lines)
    (coords : Coordinates) (aLeftSide : Bool) : Int :=
  if coords.mLine ≥ lines.length then -1
  else
    let line := lines.getD coords.mLine []
    if line.length = 0 ∨ coords.mColumn = 0 then 0
    else (gcifcGo tab line coords.mColumn aLeftSide 0 0 : Int)

/-- Embeds TextEditor::GetCharacterIndexL. -/
def GetCharacterIndexL (tab : Nat) (lines : Lines) (coords : Coordinates) : Int :=
  GetCharacterIndexFromColumn tab lines coords true

/-- Embeds TextEditor::GetCharacterIndexR. -/
def GetCharacterIndexR (tab : Nat) (lines : Lines) (coords : Coordinates) : Int :=
  GetCharacterIndexFromColumn tab lines coords false

/-- Embeds TextEditor::ColumnToCharacterIndex, which forwards to
GetCharacterIndexR (the right-leaning conversion). -/
def ColumnToCharacterIndex (tab : Nat) (lines : Lines) (aLine aColumn : Nat) : Int :=
  GetCharacterIndexR tab lines ⟨aLine, aColumn⟩

/-- One step of the glyph walk: from state (index, column) with the index
inside the line, MoveCharIndexAndColumn produces the next state. -/
def WalkStep (tab : Nat) (line : Line) (s t : Nat × Nat) : Prop :=
  s.1 < line.length ∧ t = MoveCharIndexAndColumn tab line s.1 s.2

/-- Walk states reachable from a given state. -/
def ReachFrom (tab : Nat) (line : Line) : Nat × Nat → Nat × Nat → Prop :=
  Relation.ReflTransGen (WalkStep tab line)

/-- Walk states reachable from (0,0): the glyph-boundary (index, column)
pairs of a line. -/
def Reach (tab : Nat) (line : Line) (i c : Nat) : Prop :=
  ReachFrom tab line (0, 0) (i, c)

theorem walkStep_index_lt {tab : Nat} {line : Line} {s t : Nat × Nat}
    (h : WalkStep tab line s t) : s.1 < t.1 := by
  obtain ⟨_, ht⟩ := h
  subst ht
  simp only [MoveCharIndexAndColumn]
  have := UTF8CharLength_pos (line.getD s.1 0)
  omega

theorem walkStep_col_lt {tab : Nat} {line : Line} {s t : Nat × Nat}
    (htab : 1 ≤ tab) (h : WalkStep tab line s t) : s.2 < t.2 := by
  obtain ⟨_, ht⟩ := h
  subst ht
  simp only [MoveCharIndexAndColumn]
  split
  · have h1 := Nat.mod_add_div' s.2 tab
    have h2 := Nat.mod_lt s.2 (show 0 < tab by omega)
    omega
  · omega

theorem reachFrom_index_le {tab : Nat} {line : Line} {s t : Nat × Nat}
    (h : ReachFrom tab line s t) : s.1 ≤ t.1 := by
  induction h with
  | refl => exact Nat.le_refl _
  | tail _ hstep ih => exact Nat.le_trans ih (Nat.le_of_lt (walkStep_index_lt hstep))

theorem reachFrom_col_le {tab : Nat} {line : Line} {s t : Nat × Nat}
    (htab : 1 ≤ tab) (h : ReachFrom tab line s t) : s.2 ≤ t.2 := by
  induction h with
  | refl => exact Nat.le_refl _
  | tail _ hstep ih => exact Nat.le_trans ih (Nat.le_of_lt (walkStep_col_lt htab hstep))

/-- GetCharacterColumn walks to exactly the column of any reachable state
when asked for its index. -/
theorem gccGo_reachFrom {tab : Nat} {line : Line} {s t : Nat × Nat}
    (h : ReachFrom tab line s t) : gccGo tab line t.1 s.1 s.2 = t.2 := by
  induction h using Relation.ReflTransGen.head_induction_on with
  | refl => rw [gccGo]; simp
  | head hstep hrest ih =>
    rw [gccGo]
    rename_i a b
    have h1 : a.1 < t.1 :=
      Nat.lt_of_lt_of_le (walkStep_index_lt hstep) (reachFrom_index_le hrest)
    have h2 : a.1 < line.length := hstep.1
    simp only [h1, h2, and_self, if_true]
    have hb : MoveCharIndexAndColumn tab line a.1 a.2 = b := hstep.2.symm
    rw [hb]
    exact ih

theorem reach_gcc {tab : Nat} {line : Line} {i c : Nat}
    (h : Reach tab line i c) : gccGo tab line i 0 0 = c :=
  gccGo_reachFrom h

/-- GetCharacterIndexFromColumn walks back to exactly the index of any
reachable state when asked for its column (either leaning). -/
theorem gcifcGo_reachFrom {tab : Nat} {line : Line} {s t : Nat × Nat}
    (htab : 1 ≤ tab) (lean : Bool)
    (h : ReachFrom tab line s t) : gcifcGo tab line t.2 lean s.1 s.2 = t.1 := by
  induction h using Relation.ReflTransGen.head_induction_on with
  | refl => rw [gcifcGo]; simp
  | head hstep hrest ih =>
    rw [gcifcGo]
    rename_i a b
    have h1 : a.2 < t.2 :=
      Nat.lt_of_lt_of_le (walkStep_col_lt htab hstep) (reachFrom_col_le htab hrest)
    have h2 : a.1 < line.length := hstep.1
    simp only [h2, h1, and_self, if_true]
    have hb : MoveCharIndexAndColumn tab line a.1 a.2 = b := hstep.2.symm
    rw [hb]
    have h3 : ¬ (b.2 > t.2) := Nat.not_lt.mpr (reachFrom_col_le htab hrest)
    simp only [h3, if_false]
    exact ih

/-- From a reachable state with column zero, no step has been taken. -/
theorem reach_col_zero {tab : Nat} {line : Line} {i : Nat}
    (htab : 1 ≤ tab) (h : Reach tab line i 0) : i = 0 := by
  rcases Relation.ReflTransGen.cases_head h with heq | ⟨b, hstep, hrest⟩
  · exact (congrArg Prod.fst heq).symm
  · have := walkStep_col_lt htab hstep
    have := reachFrom_col_le htab hrest
    omega

/-- GetCharacterIndexFromColumn is exact at every reachable glyph boundary. -/
theorem GetCharacterIndexFromColumn_reach {tab : Nat} {lines : Lines}
    {aLine i c : Nat} (htab : 1 ≤ tab) (hline : aLine < lines.length)
    (lean : Bool) (h : Reach tab (lines.getD aLine []) i c) :
    GetCharacterIndexFromColumn tab lines ⟨aLine, c⟩ lean = (i : Int) := by
  unfold GetCharacterIndexFromColumn
  simp only [Nat.not_le.mpr hline, ge_iff_le, if_neg (Nat.not_le.mpr hline)]
  by_cases hc : c = 0
  · subst hc
    have := reach_col_zero htab h
    simp [this]
  · have hlen : ¬ ((lines.getD aLine []).length = 0 ∨ c = 0) := by
      rintro (h0 | h0)
      · rcases Relation.ReflTransGen.cases_head h with heq | ⟨b, hstep, _⟩
        · exact hc (congrArg Prod.snd heq).symm
        · have := hstep.1
          omega
      · exact hc h0
    rw [if_neg hlen]
    simp only [if_false]
    exact_mod_cast gcifcGo_reachFrom htab lean h

/-- Terminal state of the glyph walk of one line: index and column after the
GetLineMaxColumn loop has walked the whole line. -/
def lineWalkEnd (tab : Nat) (line : Line) (i c : Nat) : Nat × Nat :=
  if i < line.length then
    let s := MoveCharIndexAndColumn tab line i c
    lineWalkEnd tab line s.1 s.2
  else (i, c)
termination_by line.length - i
decreasing_by
  have hpos := UTF8CharLength_pos (line.getD i 0)
  try simp only [MoveCharIndexAndColumn]
  omega

theorem lineWalkEnd_reachFrom (tab : Nat) (line : Line) (i c : Nat) :
    ReachFrom tab line (i, c) (lineWalkEnd tab line i c) := by
  rw [lineWalkEnd]
  by_cases h : i < line.length
  · simp only [h, if_true]
    exact Relation.ReflTransGen.head ⟨h, rfl⟩ (lineWalkEnd_reachFrom tab line _ _)
  · simp only [h, if_false]
    exact Relation.ReflTransGen.refl
termination_by line.length - i
decreasing_by
  have hpos := UTF8CharLength_pos (line.getD i 0)
  try simp only [MoveCharIndexAndColumn]
  omega

theorem lineWalkEnd_ge (tab : Nat) (line : Line) (i c : Nat) :
    line.length ≤ (lineWalkEnd tab line i c).1 := by
  rw [lineWalkEnd]
  by_cases h : i < line.length
  · simp only [h, if_true]
    exact lineWalkEnd_ge tab line _ _
  · simp only [h, if_false]
    omega
termination_by line.length - i
decreasing_by
  have hpos := UTF8CharLength_pos (line.getD i 0)
  try simp only [MoveCharIndexAndColumn]
  omega

theorem glmcGo_eq_lineWalkEnd (tab : Nat) (line : Line) (i c : Nat) :
    glmcGo tab line i c = (lineWalkEnd tab line i c).2 := by
  rw [glmcGo, lineWalkEnd]
  by_cases h : i < line.length
  · simp only [h, if_true]
    exact glmcGo_eq_lineWalkEnd tab line _ _
  · simp [h]
termination_by line.length - i
decreasing_by
  have hpos := UTF8CharLength_pos (line.getD i 0)
  try simp only [MoveCharIndexAndColumn]
  omega

/-- Helper of the SetText loop: mLines.back().emplace_back(chr). -/
def appendToLastLine : Lines → Nat → Lines
  | [], _ => []
  | [l], c => [l ++ [c]]
  | l :: ls, c => l :: appendToLastLine ls c

/-- Body of the loop of TextEditor::SetText: skip a CR byte, open a new last
line on an LF byte, otherwise append the glyph to the last line. -/
def SetTextLoopBody (lines : Lines) (chr : Nat) : Lines :=
  if chr = 13 then lines
  else if chr = 10 then lines ++ [[]]
  else appendToLastLine lines chr

/-- Embeds the buffer effect of TextEditor::SetText: start from one empty
line and run the loop over all bytes of the text.  (The undo-history reset
that SetText also performs is modelled on the Editor record below.) -/
def SetText (aText : List Nat) : Lines :=
  aText.foldl SetTextLoopBody [[]]

/-- Loop of TextEditor::GetText(aStart, aEnd): emit glyphs of the current
line, or a newline and move to the next line, while the position is before
the end. -/
def getTextGo (lines : Lines) (lend : Nat) (lstart istart iend : Nat) : List Nat :=
  if istart < iend ∨ lstart < lend then
    if lstart ≥ lines.length then []
    else
      if istart < (lines.getD lstart []).length then
        (lines.getD lstart []).getD istart 0 :: getTextGo lines lend lstart (istart + 1) iend
      else 10 :: getTextGo lines lend (lstart + 1) 0 iend
  else []
termination_by (lines.length - lstart, (lines.getD lstart []).length + 1 - istart)
decreasing_by
  · apply Prod.Lex.right
    omega
  · apply Prod.Lex.left
    omega

/-- Embeds TextEditor::GetText(aStart, aEnd). -/
def GetTextRange (tab : Nat) (lines : Lines) (aStart aEnd : Coordinates) : List Nat :=
  let istart := (GetCharacterIndexR tab lines aStart).toNat
  let iend := (GetCharacterIndexR tab lines aEnd).toNat
  getTextGo lines aEnd.mLine aStart.mLine istart iend

/-- Embeds TextEditor::GetText(): the whole buffer from (0,0) to the last
line's max column, or the empty text when that range is empty. -/
def GetText (tab : Nat) (lines : Lines) : List Nat :=
  let lastLine := lines.length - 1
  let lastLineLength := GetLineMaxColumn tab lines lastLine
  let startCoords : Coordinates := ⟨0, 0⟩
  let endCoords : Coordinates := ⟨lastLine, lastLineLength⟩
  if startCoords.lt endCoords then GetTextRange tab lines startCoords endCoords else []

/-- Functional characterization of the SetText loop: CR bytes are dropped, LF
bytes split lines.  Helper: prepend a byte to the first produced line. -/
def consHead (c : Nat) : Lines → Lines
  | [] => [[c]]
  | l :: ls => (c :: l) :: ls

/-- Recursive form of the line splitter for SetText proofs. -/
def splitLines : List Nat → Lines
  | [] => [[]]
  | c :: rest =>
    if c = 13 then splitLines rest
    else if c = 10 then [] :: splitLines rest
    else consHead c (splitLines rest)

theorem splitLines_ne_nil (T : List Nat) : splitLines T ≠ [] := by
  induction T with
  | nil => simp [splitLines]
  | cons c rest ih =>
    simp only [splitLines]
    split_ifs
    · exact ih
    · simp
    · cases h : splitLines rest <;> simp [consHead]

/-- Helper: overwrite the head line with the old head appended in front. -/
def glueFront (lst : Line) : Lines → Lines
  | [] => [lst]
  | l :: ls => (lst ++ l) :: ls

theorem appendToLastLine_append (c : Nat) (lst : Line) :
    ∀ pre : Lines, appendToLastLine (pre ++ [lst]) c = pre ++ [lst ++ [c]] := by
  intro pre
  induction pre with
  | nil => rfl
  | cons p ps ih =>
    cases ps with
    | nil => rfl
    | cons q qs =>
      show p :: appendToLastLine ((q :: qs) ++ [lst]) c = p :: ((q :: qs) ++ [lst ++ [c]])
      rw [ih]

theorem glueFront_nil (s : Lines) (h : s ≠ []) : glueFront [] s = s := by
  cases s with
  | nil => exact absurd rfl h
  | cons l ls => simp [glueFront]

theorem foldl_setTextLoop (T : List Nat) :
    ∀ (pre : Lines) (lst : Line),
      T.foldl SetTextLoopBody (pre ++ [lst]) = pre ++ glueFront lst (splitLines T) := by
  induction T with
  | nil =>
    intro pre lst
    simp [splitLines, glueFront]
  | cons c rest ih =>
    intro pre lst
    simp only [List.foldl_cons, SetTextLoopBody, splitLines]
    by_cases h13 : c = 13
    · simp only [h13, if_true]
      exact ih pre lst
    · by_cases h10 : c = 10
      · simp only [h13, h10, if_false, if_true]
        have step : (pre ++ [lst]) ++ [[]] = (pre ++ [lst]) ++ [([] : Line)] := rfl
        rw [List.append_assoc] at step
        calc List.foldl SetTextLoopBody ((pre ++ [lst]) ++ [[]]) rest
            = (pre ++ [lst]) ++ glueFront [] (splitLines rest) := ih (pre ++ [lst]) []
          _ = (pre ++ [lst]) ++ splitLines rest := by
              rw [glueFront_nil _ (splitLines_ne_nil rest)]
          _ = pre ++ glueFront lst ([] :: splitLines rest) := by
              simp [glueFront]
      · simp only [h13, h10, if_false]
        rw [appendToLastLine_append, ih pre (lst ++ [c])]
        congr 1
        cases h : splitLines rest with
        | nil => exact absurd h (splitLines_ne_nil rest)
        | cons l ls => simp [consHead, glueFront]

/-- The buffer produced by SetText is exactly the CR-stripped LF-split form
of the text. -/
theorem SetText_eq_splitLines (T : List Nat) : SetText T = splitLines T := by
  have h := foldl_setTextLoop T [] []
  simpa [SetText, glueFront_nil _ (splitLines_ne_nil T)] using h

theorem SetText_ne_nil (T : List Nat) : SetText T ≠ [] := by
  rw [SetText_eq_splitLines]
  exact splitLines_ne_nil T

/-- Join a list of lines with LF separators (inverse of the splitter). -/
def joinLines : Lines → List Nat
  | [] => []
  | [l] => l
  | l :: ls => l ++ 10 :: joinLines ls

theorem joinLines_consHead (c : Nat) (s : Lines) :
    joinLines (consHead c s) = c :: joinLines s := by
  cases s with
  | nil => rfl
  | cons l ls =>
    cases ls with
    | nil => rfl
    | cons y ys => rfl

theorem joinLines_splitLines (T : List Nat) (h13 : 13 ∉ T) :
    joinLines (splitLines T) = T := by
  induction T with
  | nil => rfl
  | cons c rest ih =>
    have hc : c ≠ 13 := fun h => h13 (h ▸ List.mem_cons_self c rest)
    have hrest : 13 ∉ rest := fun h => h13 (List.mem_cons_of_mem c h)
    simp only [splitLines, hc, if_false]
    by_cases h10 : c = 10
    · simp only [h10, if_true]
      cases h : splitLines rest with
      | nil => exact absurd h (splitLines_ne_nil rest)
      | cons l ls =>
        show joinLines ([] :: l :: ls) = 10 :: rest
        show ([] : Line) ++ 10 :: joinLines (l :: ls) = 10 :: rest
        rw [← h, ih hrest]
        rfl
    · simp only [h10, if_false]
      rw [joinLines_consHead, ih hrest]

/-- Tail part of the GetText concatenation: an LF before each further line. -/
def joinFrom (lines : Lines) (k : Nat) : List Nat :=
  if k < lines.length then 10 :: lines.getD k [] ++ joinFrom lines (k + 1)
  else []
termination_by lines.length - k

theorem joinFrom_cons_succ (x : Line) (xs : Lines) (k : Nat) :
    joinFrom (x :: xs) (k + 1) = joinFrom xs k := by
  conv_lhs => rw [joinFrom]
  conv_rhs => rw [joinFrom]
  by_cases h : k < xs.length
  · simp only [List.length_cons, Nat.add_lt_add_iff_right, h, if_true, List.getD_cons_succ]
    rw [joinFrom_cons_succ]
  · have h2 : ¬ (k + 1 < (x :: xs).length) := by simp only [List.length_cons]; omega
    simp [h, h2]
termination_by xs.length - k

theorem joinLines_eq_joinFrom (x : Line) (xs : Lines) :
    joinLines (x :: xs) = x ++ joinFrom (x :: xs) 1 := by
  rw [joinFrom_cons_succ]
  induction xs generalizing x with
  | nil => simp [joinLines, joinFrom]
  | cons y ys ih =>
    show x ++ 10 :: joinLines (y :: ys) = x ++ joinFrom (y :: ys) 0
    conv_rhs => rw [joinFrom]
    rw [ih y, joinFrom_cons_succ]
    simp

theorem getTextGo_eq (lines : Lines) (lstart istart iend : Nat)
    (h1 : lstart < lines.length)
    (h2 : istart ≤ (lines.getD lstart []).length)
    (hiend : iend = (lines.getD (lines.length - 1) []).length) :
    getTextGo lines (lines.length - 1) lstart istart iend
      = (lines.getD lstart []).drop istart ++ joinFrom lines (lstart + 1) := by
  by_cases hA : istart < (lines.getD lstart []).length
  · have hguard : istart < iend ∨ lstart < lines.length - 1 := by
      by_cases hl : lstart = lines.length - 1
      · left
        rw [hiend, ← hl]
        exact hA
      · right
        omega
    rw [getTextGo, if_pos hguard, if_neg (by omega : ¬ lstart ≥ lines.length), if_pos hA]
    rw [getTextGo_eq lines lstart (istart + 1) iend h1 (by omega) hiend]
    rw [List.drop_eq_getElem_cons hA, List.getD_eq_getElem _ _ hA]
    rfl
  · have hEq : istart = (lines.getD lstart []).length := by omega
    by_cases hB : lstart < lines.length - 1
    · rw [getTextGo, if_pos (Or.inr hB), if_neg (by omega : ¬ lstart ≥ lines.length),
        if_neg hA]
      rw [List.drop_eq_nil_of_le (by omega : (lines.getD lstart []).length ≤ istart)]
      rw [getTextGo_eq lines (lstart + 1) 0 iend (by omega) (by omega) hiend]
      conv_rhs => rw [joinFrom]
      rw [if_pos (by omega : lstart + 1 < lines.length)]
      simp
    · have hl : lstart = lines.length - 1 := by omega
      have hie : istart = iend := by
        rw [hiend, ← hl]
        exact hEq
      rw [getTextGo, if_neg (by omega : ¬ (istart < iend ∨ lstart < lines.length - 1))]
      rw [List.drop_eq_nil_of_le (by omega : (lines.getD lstart []).length ≤ istart),
        joinFrom, if_neg (by omega : ¬ (lstart + 1 < lines.length))]
      rfl
termination_by (lines.length - lstart, (lines.getD lstart []).length + 1 - istart)
decreasing_by
  · apply Prod.Lex.right
    omega
  · apply Prod.Lex.left
    omega

theorem GetCharacterIndexR_zero (tab : Nat) (lines : Lines) (h : 0 < lines.length) :
    GetCharacterIndexR tab lines ⟨0, 0⟩ = 0 := by
  unfold GetCharacterIndexR GetCharacterIndexFromColumn
  simp [Nat.not_le.mpr h]

theorem GetText_def (tab : Nat) (lines : Lines) :
    GetText tab lines =
      if (⟨0, 0⟩ : Coordinates).lt
          ⟨lines.length - 1, GetLineMaxColumn tab lines (lines.length - 1)⟩ then
        GetTextRange tab lines ⟨0, 0⟩
          ⟨lines.length - 1, GetLineMaxColumn tab lines (lines.length - 1)⟩
      else [] := rfl

theorem GetTextRange_def (tab : Nat) (lines : Lines) (aStart aEnd : Coordinates) :
    GetTextRange tab lines aStart aEnd =
      getTextGo lines aEnd.mLine aStart.mLine
        (GetCharacterIndexR tab lines aStart).toNat
        (GetCharacterIndexR tab lines aEnd).toNat := rfl

/-- C1 (amended): for every text T without a CR byte whose final produced
line's UTF-8 glyph walk lands exactly on the line's end (true in particular
for every all-ASCII and every well-formed UTF-8 text), SetText(T) followed by
GetText() returns exactly T; no trailing newline is added or dropped.  The
unamended claim, quantified over all byte texts, fails when the text ends in
a truncated multi-byte UTF-8 sequence (see the counterexample). -/
theorem C1_setText_getText_roundtrip (tab : Nat) (T : List Nat) (htab : 1 ≤ tab)
    (h13 : 13 ∉ T)
    (hexact : (lineWalkEnd tab ((SetText T).getD ((SetText T).length - 1) []) 0 0).1
        = ((SetText T).getD ((SetText T).length - 1) []).length) :
    GetText tab (SetText T) = T := by
  set L := SetText T with hL
  have hne : L ≠ [] := SetText_ne_nil T
  have hlen : 0 < L.length := List.length_pos.mpr hne
  set lastIdx := L.length - 1 with hlast
  set lastL := L.getD lastIdx [] with hlastL
  set p := lineWalkEnd tab lastL 0 0 with hp
  have hreach : Reach tab lastL p.1 p.2 := lineWalkEnd_reachFrom tab lastL 0 0
  have hinr : lastIdx < L.length := by omega
  have hmax : GetLineMaxColumn tab L lastIdx = p.2 := by
    unfold GetLineMaxColumn
    rw [if_neg (Nat.not_le.mpr hinr)]
    rw [glmcGo_eq_lineWalkEnd]
  have hjoin : joinLines L = T := by
    rw [hL, SetText_eq_splitLines]
    exact joinLines_splitLines T h13
  rw [GetText_def, hmax]
  by_cases hlt : (⟨0, 0⟩ : Coordinates).lt ⟨lastIdx, p.2⟩
  · rw [if_pos hlt]
    rw [GetTextRange_def]
    have hR : GetCharacterIndexR tab L ⟨lastIdx, p.2⟩ = (p.1 : Int) :=
      GetCharacterIndexFromColumn_reach htab hinr false hreach
    rw [GetCharacterIndexR_zero tab L hlen, hR]
    show getTextGo L lastIdx 0 (Int.toNat 0) (Int.toNat (p.1 : Int)) = T
    rw [Int.toNat_zero, Int.toNat_natCast]
    rw [getTextGo_eq L 0 0 p.1 hlen (Nat.zero_le _) hexact]
    obtain ⟨l0, rest, hcons⟩ := List.exists_cons_of_ne_nil hne
    rw [hcons]
    simp only [List.getD_cons_zero, List.drop_zero]
    rw [← joinLines_eq_joinFrom l0 rest, ← hcons, hjoin]
  · rw [if_neg hlt]
    have hlt2 : lastIdx = 0 ∧ p.2 = 0 := by
      by_contra hcon
      apply hlt
      unfold Coordinates.lt
      simp only
      by_cases h0 : lastIdx = 0
      · have hc : p.2 ≠ 0 := fun h => hcon ⟨h0, h⟩
        simp [h0, Nat.pos_of_ne_zero hc]
      · simp [Ne.symm h0, Nat.pos_of_ne_zero h0]
    have hi0 : p.1 = 0 := reach_col_zero htab (hlt2.2 ▸ hreach)
    have hempty : lastL.length = 0 := by omega
    have hLlen : L.length = 1 := by omega
    obtain ⟨x, hx⟩ := List.length_eq_one.mp hLlen
    have hxnil : x = [] := by
      have : lastL = x := by
        rw [hlastL, hx, hlt2.1]
        rfl
      rw [← this]
      exact List.length_eq_zero.mp hempty
    have : T = [] := by
      rw [← hjoin, hx, hxnil]
      rfl
    rw [this]

/-- C1 witness: the round trip at tab size 4 on the concrete text
"abc\ndef\n". -/
theorem C1_setText_getText_roundtrip_witness :
    GetText 4 (SetText [97, 98, 99, 10, 100, 101, 102, 10])
      = [97, 98, 99, 10, 100, 101, 102, 10] := by
  apply C1_setText_getText_roundtrip 4 _ (by omega) (by decide)
  have h : SetText [97, 98, 99, 10, 100, 101, 102, 10]
      = [[97, 98, 99], [100, 101, 102], []] := by decide
  rw [h]
  show (lineWalkEnd 4 [] 0 0).1 = 0
  rw [lineWalkEnd]
  simp

/-- C1 counterexample: the claim as stated over every CR-free byte text
fails: for the one-byte text 0xC3 (a truncated UTF-8 lead byte), GetText
after SetText returns the text with a spurious trailing newline. -/
theorem C1_counterexample :
    13 ∉ ([195] : List Nat) ∧
      GetText 4 (SetText [195]) ≠ [195] := by
  constructor
  · decide
  · have h : SetText [195] = [[195]] := by decide
    rw [h]
    have h195 : UTF8CharLength 195 = 2 := by decide
    have hmax : GetLineMaxColumn 4 [[195]] 0 = 1 := by
      simp [GetLineMaxColumn, glmcGo, MoveCharIndexAndColumn, h195]
    rw [GetText_def]
    simp only [List.length_cons, List.length_nil]
    rw [hmax]
    have hlt : (⟨0, 0⟩ : Coordinates).lt ⟨1 - 1, 1⟩ = true := by decide
    rw [if_pos hlt, GetTextRange_def]
    have hi : GetCharacterIndexR 4 [[195]] ⟨1 - 1, 1⟩ = 2 := by
      simp [GetCharacterIndexR, GetCharacterIndexFromColumn, gcifcGo,
        MoveCharIndexAndColumn, h195]
    rw [GetCharacterIndexR_zero 4 [[195]] (by simp), hi]
    simp [getTextGo]

theorem charIndexToColumn_reach {tab : Nat} {lines : Lines} {aLine i c : Nat}
    (hline : aLine < lines.length)
    (hreach : Reach tab (lines.getD aLine []) i c) :
    CharacterIndexToColumn tab lines aLine i = c := by
  unfold CharacterIndexToColumn GetCharacterColumn
  rw [if_neg (Nat.not_le.mpr hline)]
  exact gccGo_reachFrom hreach

/-- C4: for every buffer line and every character index i of that line that
sits on a glyph boundary (a tab occupies a single character index, so an
index never splits a tab), CharacterIndexToColumn followed by the
right-leaning ColumnToCharacterIndex yields i again; this holds for lines
mixing tabs and spaces since the glyph walk handles both. -/
theorem C4_column_index_inverse (tab : Nat) (lines : Lines) (aLine i c : Nat)
    (htab : 1 ≤ tab) (hline : aLine < lines.length)
    (hreach : Reach tab (lines.getD aLine []) i c) :
    ColumnToCharacterIndex tab lines aLine
      (CharacterIndexToColumn tab lines aLine i) = (i : Int) := by
  rw [charIndexToColumn_reach hline hreach]
  unfold ColumnToCharacterIndex
  exact GetCharacterIndexFromColumn_reach htab hline false hreach

/-- C4 witness: tab size 4, line mixing a tab, a space and a letter; index 2
(after the tab and the space, column 5) round trips. -/
theorem C4_column_index_inverse_witness :
    ColumnToCharacterIndex 4 [[9, 32, 120]] 0
      (CharacterIndexToColumn 4 [[9, 32, 120]] 0 2) = (2 : Int) :=
  C4_column_index_inverse 4 [[9, 32, 120]] 0 2 5 (by omega) (by decide)
    (Relation.ReflTransGen.tail
      (show ReachFrom 4 (([[9, 32, 120]] : Lines).getD 0 []) (0, 0) (1, 4) from
        Relation.ReflTransGen.single ⟨by decide, by decide⟩)
      ⟨by decide, by decide⟩)

/-- C5: CharacterIndexToColumn advances the column by one per normal glyph
and rounds a tab up to the next tab stop computed as column/tabSize*tabSize
+ tabSize; concretely with tab size 4 on the line "\tx",
CharIndexToColumn(0,1) = 4 and CharIndexToColumn(0,2) = 5. -/
theorem C5_charIndexToColumn_tab_stops :
    (∀ (tab : Nat) (lines : Lines) (aLine i c : Nat), 1 ≤ tab →
      aLine < lines.length →
      Reach tab (lines.getD aLine []) i c →
      i < (lines.getD aLine []).length →
      CharacterIndexToColumn tab lines aLine
          (i + UTF8CharLength ((lines.getD aLine []).getD i 0))
        = (if (lines.getD aLine []).getD i 0 = 9
            then (c / tab) * tab + tab else c + 1)) ∧
    CharacterIndexToColumn 4 [[9, 120]] 0 1 = 4 ∧
    CharacterIndexToColumn 4 [[9, 120]] 0 2 = 5 := by
  refine ⟨?_, ?_, ?_⟩
  · intro tab lines aLine i c htab hline hreach hlt
    have hstep : Reach tab (lines.getD aLine [])
        (MoveCharIndexAndColumn tab (lines.getD aLine []) i c).1
        (MoveCharIndexAndColumn tab (lines.getD aLine []) i c).2 :=
      Relation.ReflTransGen.tail hreach ⟨hlt, rfl⟩
    have := charIndexToColumn_reach hline hstep
    simpa [MoveCharIndexAndColumn] using this
  · simp [CharacterIndexToColumn, GetCharacterColumn, gccGo, MoveCharIndexAndColumn,
      UTF8CharLength_single]
  · simp [CharacterIndexToColumn, GetCharacterColumn, gccGo, MoveCharIndexAndColumn,
      UTF8CharLength_single]

/-- C5 witness: the general tab-stop step rule applied at the concrete tab
glyph of the line "\tx" from the initial walk state. -/
theorem C5_charIndexToColumn_tab_stops_witness :
    CharacterIndexToColumn 4 [[9, 120]] 0
        (0 + UTF8CharLength ((([[9, 120]] : Lines).getD 0 []).getD 0 0))
      = (if (([[9, 120]] : Lines).getD 0 []).getD 0 0 = 9
          then (0 / 4) * 4 + 4 else 0 + 1) :=
  C5_charIndexToColumn_tab_stops.1 4 [[9, 120]] 0 0 0 (by omega) (by decide)
    Relation.ReflTransGen.refl (by decide)

/-- Embeds struct Cursor: a pair of interactive coordinates; the selection
is the ordered pair of the two. -/
structure Cursor where
  mInteractiveStart : Coordinates := ⟨0, 0⟩
  mInteractiveEnd : Coordinates := ⟨0, 0⟩
deriving DecidableEq

/-- Embeds Cursor::GetSelectionStart. -/
def Cursor.GetSelectionStart (c : Cursor) : Coordinates :=
  if c.mInteractiveStart.lt c.mInteractiveEnd then c.mInteractiveStart else c.mInteractiveEnd

/-- Embeds Cursor::GetSelectionEnd. -/
def Cursor.GetSelectionEnd (c : Cursor) : Coordinates :=
  if c.mInteractiveStart.gt c.mInteractiveEnd then c.mInteractiveStart else c.mInteractiveEnd

/-- Embeds Cursor::HasSelection. -/
def Cursor.HasSelection (c : Cursor) : Bool :=
  c.mInteractiveStart ≠ c.mInteractiveEnd

/-- Embeds struct EditorState: the cursor vector with the current-cursor
index (the active cursors are indices 0..mCurrentCursor). -/
structure EditorState where
  mCurrentCursor : Nat := 0
  mLastAddedCursor : Nat := 0
  mCursors : List Cursor := [{}]
deriving DecidableEq

/-- Embeds TextEditor::AnyCursorHasSelection (scans cursors 0..current). -/
def AnyCursorHasSelection (s : EditorState) : Bool :=
  (s.mCursors.take (s.mCurrentCursor + 1)).any (·.HasSelection)

/-- Selection branch of TextEditor::MergeCursorsIfPossible.  The C++ code
sweeps index pairs (c-1, c) from the highest index down, marking the right
cursor of a pair for deletion when the left one contains it (previous
selection end ge current selection end) or extending the left one over it
when they overlap (previous selection end gt current selection start), and
erases the marked cursors afterwards; since each pair reads the right
cursor after its own rightward merges and deletions, the sweep is exactly
this right fold. -/
def mergeSelPass : List Cursor → List Cursor
  | [] => []
  | x :: rest =>
    match mergeSelPass rest with
    | [] => [x]
    | y :: ys =>
      if x.GetSelectionEnd.ge y.GetSelectionEnd then x :: ys
      else if x.GetSelectionEnd.gt y.GetSelectionStart then
        { mInteractiveStart := x.GetSelectionStart,
          mInteractiveEnd := y.GetSelectionEnd } :: ys
      else x :: y :: ys

/-- Position branch of TextEditor::MergeCursorsIfPossible: when no cursor
has a selection, the pair sweep deletes the right cursor of any adjacent
pair with equal interactive end positions. -/
def mergePosPass : List Cursor → List Cursor
  | [] => []
  | x :: rest =>
    match mergePosPass rest with
    | [] => [x]
    | y :: ys =>
      if x.mInteractiveEnd = y.mInteractiveEnd then x :: ys
      else x :: y :: ys

/-- Embeds TextEditor::MergeCursorsIfPossible (requires the cursors sorted
from top to bottom, as its comment states): run the pair sweep over the
active cursors and decrement mCurrentCursor by the number of erased ones. -/
def MergeCursorsIfPossible (s : EditorState) : EditorState :=
  let active := s.mCursors.take (s.mCurrentCursor + 1)
  let inactive := s.mCursors.drop (s.mCurrentCursor + 1)
  let merged := if AnyCursorHasSelection s then mergeSelPass active else mergePosPass active
  { s with
    mCursors := merged ++ inactive,
    mCurrentCursor := s.mCurrentCursor - (active.length - merged.length) }

theorem mergePosPass_cons (x : Cursor) (t : List Cursor) :
    ∃ ys, mergePosPass (x :: t) = x :: ys := by
  show ∃ ys, (match mergePosPass t with
    | [] => [x]
    | y :: ys =>
      if x.mInteractiveEnd = y.mInteractiveEnd then x :: ys else x :: y :: ys) = x :: ys
  cases mergePosPass t with
  | nil => exact ⟨[], rfl⟩
  | cons y ys =>
    by_cases h : x.mInteractiveEnd = y.mInteractiveEnd
    · exact ⟨ys, by simp [h]⟩
    · exact ⟨y :: ys, by simp [h]⟩

theorem mergePosPass_subset (l : List Cursor) :
    ∀ c ∈ mergePosPass l, c ∈ l := by
  induction l with
  | nil => intro c h; exact absurd h (by simp [mergePosPass])
  | cons x t ih =>
    intro c hc
    show c ∈ x :: t
    rw [show mergePosPass (x :: t) = (match mergePosPass t with
      | [] => [x]
      | y :: ys =>
        if x.mInteractiveEnd = y.mInteractiveEnd then x :: ys else x :: y :: ys) from rfl] at hc
    cases hmt : mergePosPass t with
    | nil =>
      rw [hmt] at hc
      simp at hc
      simp [hc]
    | cons y ys =>
      rw [hmt] at hc
      dsimp only at hc
      by_cases h : x.mInteractiveEnd = y.mInteractiveEnd
      · rw [if_pos h] at hc
        rcases List.mem_cons.mp hc with h1 | h1
        · simp [h1]
        · exact List.mem_cons_of_mem x (ih c (hmt ▸ List.mem_cons_of_mem y h1))
      · rw [if_neg h] at hc
        rcases List.mem_cons.mp hc with h1 | h1
        · simp [h1]
        · exact List.mem_cons_of_mem x (ih c (hmt ▸ h1))

theorem mergePosPass_length_le (l : List Cursor) :
    (mergePosPass l).length ≤ l.length := by
  induction l with
  | nil => simp [mergePosPass]
  | cons x t ih =>
    show (match mergePosPass t with
      | [] => [x]
      | y :: ys =>
        if x.mInteractiveEnd = y.mInteractiveEnd then x :: ys
        else x :: y :: ys).length ≤ t.length + 1
    cases hmt : mergePosPass t with
    | nil => simp
    | cons y ys =>
      rw [hmt] at ih
      dsimp only
      by_cases h : x.mInteractiveEnd = y.mInteractiveEnd
      · simp only [if_pos h, List.length_cons] at *
        omega
      · simp only [if_neg h, List.length_cons] at *
        omega

theorem mergePosPass_chain (l : List Cursor)
    (h : l.Chain' (fun a b => a.mInteractiveEnd.le b.mInteractiveEnd = true)) :
    (mergePosPass l).Chain'
      (fun a b => a.mInteractiveEnd.le b.mInteractiveEnd = true ∧
        a.mInteractiveEnd ≠ b.mInteractiveEnd) := by
  induction l with
  | nil => simp [mergePosPass]
  | cons x t ih =>
    cases t with
    | nil => simp [mergePosPass]
    | cons a t2 =>
      have hxa : x.mInteractiveEnd.le a.mInteractiveEnd = true :=
        (List.chain'_cons.mp h).1
      have hta : List.Chain' _ (a :: t2) := (List.chain'_cons.mp h).2
      have ihc := ih hta
      obtain ⟨ys, hys⟩ := mergePosPass_cons a t2
      rw [hys] at ihc
      show List.Chain' _ (match mergePosPass (a :: t2) with
        | [] => [x]
        | y :: ys =>
          if x.mInteractiveEnd = y.mInteractiveEnd then x :: ys
          else x :: y :: ys)
      rw [hys]
      dsimp only
      by_cases heq : x.mInteractiveEnd = a.mInteractiveEnd
      · rw [if_pos heq]
        rcases List.chain'_cons'.mp ihc with ⟨hhead, hys2⟩
        refine List.chain'_cons'.mpr ⟨?_, hys2⟩
        intro y0 hy0
        obtain ⟨h1, h2⟩ := hhead y0 hy0
        rw [heq]
        exact ⟨h1, h2⟩
      · rw [if_neg heq]
        exact List.chain'_cons.mpr ⟨⟨hxa, heq⟩, ihc⟩

theorem mergePosPass_eq_self (l : List Cursor)
    (h : l.Chain' (fun a b => a.mInteractiveEnd.le b.mInteractiveEnd = true ∧
      a.mInteractiveEnd ≠ b.mInteractiveEnd)) :
    mergePosPass l = l := by
  induction l with
  | nil => rfl
  | cons x t ih =>
    cases t with
    | nil => rfl
    | cons a t2 =>
      have hxa := (List.chain'_cons.mp h).1
      have hta := (List.chain'_cons.mp h).2
      show (match mergePosPass (a :: t2) with
        | [] => [x]
        | y :: ys =>
          if x.mInteractiveEnd = y.mInteractiveEnd then x :: ys
          else x :: y :: ys) = x :: a :: t2
      rw [ih hta]
      dsimp only
      rw [if_neg hxa.2]

/-- C3 (amended): when no cursor has a selection and the active cursors are
sorted, one MergeCursorsIfPossible removes all duplicate positions and a
second application changes nothing; and in Scenario C two cursors both at
(0,0) with no selection collapse to exactly one cursor.  With selections the
pair sweep only merges adjacent overlaps, so a single pass is not idempotent
when a selection strictly contains a later cursor's selection (see the
counterexample). -/
theorem C3_merge_idempotent_point_cursors (s : EditorState)
    (hlen : s.mCursors.length = s.mCurrentCursor + 1)
    (hnosel : AnyCursorHasSelection s = false)
    (hsorted : s.mCursors.Chain'
      (fun a b => a.mInteractiveEnd.le b.mInteractiveEnd = true)) :
    MergeCursorsIfPossible (MergeCursorsIfPossible s) = MergeCursorsIfPossible s ∧
    (MergeCursorsIfPossible
      { mCurrentCursor := 1, mLastAddedCursor := 1,
        mCursors := [{}, {}] }).mCursors = [{}] ∧
    (MergeCursorsIfPossible
      { mCurrentCursor := 1, mLastAddedCursor := 1,
        mCursors := [{}, {}] }).mCurrentCursor = 0 := by
  refine ⟨?_, by decide, by decide⟩
  obtain ⟨cur, last, cursors⟩ := s
  simp only at hlen hnosel hsorted
  have htake : cursors.take (cur + 1) = cursors := List.take_of_length_le (by omega)
  have hdrop : cursors.drop (cur + 1) = [] := List.drop_eq_nil_of_le (by omega)
  have hne : cursors ≠ [] := by
    intro h0
    rw [h0] at hlen
    simp at hlen
  obtain ⟨c0, rest, hcons⟩ := List.exists_cons_of_ne_nil hne
  obtain ⟨ys, hys⟩ := mergePosPass_cons c0 rest
  have hMne : mergePosPass cursors ≠ [] := by
    rw [hcons, hys]
    simp
  have hMlen : 1 ≤ (mergePosPass cursors).length :=
    List.length_pos.mpr hMne
  have hMle : (mergePosPass cursors).length ≤ cursors.length :=
    mergePosPass_length_le cursors
  have h1 : MergeCursorsIfPossible ⟨cur, last, cursors⟩ =
      ⟨(mergePosPass cursors).length - 1, last, mergePosPass cursors⟩ := by
    unfold MergeCursorsIfPossible
    simp only [hnosel, Bool.false_eq_true, if_false, htake, hdrop, List.append_nil]
    congr 1
    omega
  rw [h1]
  have hchain := mergePosPass_chain cursors hsorted
  have hnosel1 : AnyCursorHasSelection
      ⟨(mergePosPass cursors).length - 1, last, mergePosPass cursors⟩ = false := by
    unfold AnyCursorHasSelection at hnosel ⊢
    simp only [htake] at hnosel
    rw [List.any_eq_false] at hnosel ⊢
    intro c hc
    exact hnosel c (mergePosPass_subset cursors c (List.mem_of_mem_take hc))
  have htake1 : (mergePosPass cursors).take ((mergePosPass cursors).length - 1 + 1)
      = mergePosPass cursors := List.take_of_length_le (by omega)
  have hdrop1 : (mergePosPass cursors).drop ((mergePosPass cursors).length - 1 + 1)
      = [] := List.drop_eq_nil_of_le (by omega)
  unfold MergeCursorsIfPossible
  simp only [hnosel1, Bool.false_eq_true, if_false, htake1, hdrop1, List.append_nil]
  rw [mergePosPass_eq_self _ hchain]
  simp

/-- C3 witness: a sorted two-cursor state with both point cursors at column
3; the theorem applies and merging is idempotent there. -/
theorem C3_merge_idempotent_point_cursors_witness :
    MergeCursorsIfPossible (MergeCursorsIfPossible
      { mCurrentCursor := 1, mLastAddedCursor := 0,
        mCursors := [⟨⟨0, 3⟩, ⟨0, 3⟩⟩, ⟨⟨0, 3⟩, ⟨0, 3⟩⟩] })
      = MergeCursorsIfPossible
        { mCurrentCursor := 1, mLastAddedCursor := 0,
          mCursors := [⟨⟨0, 3⟩, ⟨0, 3⟩⟩, ⟨⟨0, 3⟩, ⟨0, 3⟩⟩] } :=
  (C3_merge_idempotent_point_cursors
    { mCurrentCursor := 1, mLastAddedCursor := 0,
      mCursors := [⟨⟨0, 3⟩, ⟨0, 3⟩⟩, ⟨⟨0, 3⟩, ⟨0, 3⟩⟩] }
    (by decide) (by decide)
    (List.chain'_cons.mpr ⟨by decide, List.chain'_singleton _⟩)).1

/-- C3 counterexample: a sorted three-cursor state in which the first
selection strictly contains the second and overlaps the third; one
MergeCursorsIfPossible pass leaves the first and third cursors overlapping,
so a second pass changes the state again and the merge step is not
idempotent. -/
theorem C3_counterexample :
    MergeCursorsIfPossible (MergeCursorsIfPossible
      { mCurrentCursor := 2, mLastAddedCursor := 0,
        mCursors := [⟨⟨0, 0⟩, ⟨0, 10⟩⟩, ⟨⟨0, 1⟩, ⟨0, 2⟩⟩, ⟨⟨0, 3⟩, ⟨0, 12⟩⟩] })
      ≠ MergeCursorsIfPossible
        { mCurrentCursor := 2, mLastAddedCursor := 0,
          mCursors := [⟨⟨0, 0⟩, ⟨0, 10⟩⟩, ⟨⟨0, 1⟩, ⟨0, 2⟩⟩, ⟨⟨0, 3⟩, ⟨0, 12⟩⟩] } := by
  decide

/-- Embeds matching_open_bracket: the open bracket matching a close one. -/
def matching_open_bracket (close_bracket : Nat) : Option Nat :=
  if close_bracket = 125 then some 123
  else if close_bracket = 41 then some 40
  else if close_bracket = 93 then some 91
  else none

/-- Embeds matching_close_bracket: the close bracket matching an open one. -/
def matching_close_bracket (open_bracket : Nat) : Option Nat :=
  if open_bracket = 123 then some 125
  else if open_bracket = 40 then some 41
  else if open_bracket = 91 then some 93
  else none

/-- Embeds static bool IsUTFSequence(char c): a UTF-8 continuation byte. -/
def IsUTFSequence (c : Nat) : Bool := c &&& 0xC0 = 0x80

/-- Inner loop of the left branch of TextEditor::Move: after stepping one
byte left, keep stepping over UTF-8 continuation bytes. -/
def moveLeftSkipUTF (line : Line) (i : Nat) : Nat :=
  if 0 < i ∧ IsUTFSequence (line.getD i 0) then moveLeftSkipUTF line (i - 1) else i
termination_by i

theorem moveLeftSkipUTF_le (line : Line) (i : Nat) : moveLeftSkipUTF line i ≤ i := by
  rw [moveLeftSkipUTF]
  by_cases h : 0 < i ∧ IsUTFSequence (line.getD i 0)
  · rw [if_pos h]
    have := moveLeftSkipUTF_le line (i - 1)
    omega
  · rw [if_neg h]
termination_by i

/-- Embeds TextEditor::Move(aLine, aCharIndex, aLeft, aLockLine): returns
the updated position, or none when the source returns false (no move
possible). -/
def Move (lines : Lines) (aLine aCharIndex : Nat) (aLeft aLockLine : Bool) :
    Option (Nat × Nat) :=
  if aLine ≥ lines.length then none
  else if aLeft then
    if aCharIndex = 0 then
      if aLockLine ∨ aLine = 0 then none
      else some (aLine - 1, (lines.getD (aLine - 1) []).length)
    else some (aLine, moveLeftSkipUTF (lines.getD aLine []) (aCharIndex - 1))
  else
    if aCharIndex = (lines.getD aLine []).length then
      if aLockLine ∨ aLine = lines.length - 1 then none
      else some (aLine + 1, 0)
    else
      some (aLine,
        min (aCharIndex + UTF8CharLength ((lines.getD aLine []).getD aCharIndex 0))
          (lines.getD aLine []).length)

theorem Move_left_decreases {lines : Lines} {aLine aCharIndex : Nat}
    {lockLine : Bool} {l i : Nat}
    (h : Move lines aLine aCharIndex true lockLine = some (l, i)) :
    l < aLine ∨ (l = aLine ∧ i < aCharIndex) := by
  have haux := moveLeftSkipUTF_le (lines.getD aLine []) (aCharIndex - 1)
  unfold Move at h
  by_cases hA : aLine ≥ lines.length
  · rw [if_pos hA] at h
    cases h
  · rw [if_neg hA] at h
    simp only [eq_self_iff_true, if_true] at h
    by_cases hC : aCharIndex = 0
    · rw [if_pos hC] at h
      by_cases hD : (lockLine = true ∨ aLine = 0)
      · rw [if_pos hD] at h
        cases h
      · rw [if_neg hD] at h
        injection h with h4
        have h5 : aLine - 1 = l := congrArg Prod.fst h4
        have h6 : (lines.getD (aLine - 1) []).length = i := congrArg Prod.snd h4
        have h0 : aLine ≠ 0 := fun hz => hD (Or.inr hz)
        left
        omega
    · rw [if_neg hC] at h
      injection h with h4
      have h5 : aLine = l := congrArg Prod.fst h4
      have h6 : moveLeftSkipUTF (lines.getD aLine []) (aCharIndex - 1) = i :=
        congrArg Prod.snd h4
      right
      exact ⟨h5.symm, by omega⟩

/-- Measure used for the rightward scans: lines remaining, then room left in
the current line (with a penalty making the clamped move decrease it too). -/
def rightMeasure (lines : Lines) (aLine aCharIndex : Nat) : Nat × Nat :=
  (lines.length - aLine,
    (lines.getD aLine []).length + 1 - aCharIndex +
      (if (lines.getD aLine []).length < aCharIndex then 2 else 0))

theorem Move_right_decreases {lines : Lines} {aLine aCharIndex : Nat}
    {lockLine : Bool} {l i : Nat}
    (h : Move lines aLine aCharIndex false lockLine = some (l, i)) :
    (lines.length - l < lines.length - aLine) ∨
      (lines.length - l = lines.length - aLine ∧
        (lines.getD l []).length + 1 - i +
            (if (lines.getD l []).length < i then 2 else 0) <
          (lines.getD aLine []).length + 1 - aCharIndex +
            (if (lines.getD aLine []).length < aCharIndex then 2 else 0)) := by
  have hpos := UTF8CharLength_pos ((lines.getD aLine []).getD aCharIndex 0)
  unfold Move at h
  by_cases hA : aLine ≥ lines.length
  · rw [if_pos hA] at h
    cases h
  · rw [if_neg hA] at h
    simp only [Bool.false_eq_true, if_false] at h
    by_cases hC : aCharIndex = (lines.getD aLine []).length
    · rw [if_pos hC] at h
      by_cases hD : (lockLine = true ∨ aLine = lines.length - 1)
      · rw [if_pos hD] at h
        cases h
      · rw [if_neg hD] at h
        injection h with h4
        have h5 : aLine + 1 = l := congrArg Prod.fst h4
        have h0 : aLine ≠ lines.length - 1 := fun hz => hD (Or.inr hz)
        left
        omega
    · rw [if_neg hC] at h
      injection h with h4
      have h5 : aLine = l := congrArg Prod.fst h4
      have h6 : min (aCharIndex +
          UTF8CharLength ((lines.getD aLine []).getD aCharIndex 0))
          (lines.getD aLine []).length = i := congrArg Prod.snd h4
      subst h5
      right
      refine ⟨rfl, ?_⟩
      by_cases hgt : (lines.getD aLine []).length < aCharIndex
      · rw [if_pos hgt, if_neg (by omega : ¬ ((lines.getD aLine []).length < i))]
        omega
      · rw [if_neg hgt, if_neg (by omega : ¬ ((lines.getD aLine []).length < i))]
        omega

/-- Left-scanning loop of TextEditor::FindMatchingBracket (anchor is a close
bracket): step left, count nesting, and return the column coordinates of the
open bracket that brings the counter to zero. -/
def fmbLeft (tab : Nat) (lines : Lines) (openChar closeChar : Nat)
    (counter : Nat) (currentLine currentCharIndex : Nat) : Option Coordinates :=
  match hmv : Move lines currentLine currentCharIndex true false with
  | none => none
  | some (l, i) =>
    if i < (lines.getD l []).length then
      if (lines.getD l []).getD i 0 = openChar then
        if counter - 1 = 0 then some ⟨l, GetCharacterColumn tab lines l i⟩
        else fmbLeft tab lines openChar closeChar (counter - 1) l i
      else if (lines.getD l []).getD i 0 = closeChar then
        fmbLeft tab lines openChar closeChar (counter + 1) l i
      else fmbLeft tab lines openChar closeChar counter l i
    else fmbLeft tab lines openChar closeChar counter l i
termination_by (currentLine, currentCharIndex)
decreasing_by
  all_goals
    rcases Move_left_decreases hmv with hlt | ⟨heq, hlt⟩
  all_goals
    try (exact Prod.Lex.left _ _ hlt)
  all_goals
    subst heq
  all_goals
    exact Prod.Lex.right _ hlt

/-- Right-scanning loop of TextEditor::FindMatchingBracket (anchor is an
open bracket). -/
def fmbRight (tab : Nat) (lines : Lines) (openChar closeChar : Nat)
    (counter : Nat) (currentLine currentCharIndex : Nat) : Option Coordinates :=
  match hmv : Move lines currentLine currentCharIndex false false with
  | none => none
  | some (l, i) =>
    if i < (lines.getD l []).length then
      if (lines.getD l []).getD i 0 = closeChar then
        if counter - 1 = 0 then some ⟨l, GetCharacterColumn tab lines l i⟩
        else fmbRight tab lines openChar closeChar (counter - 1) l i
      else if (lines.getD l []).getD i 0 = openChar then
        fmbRight tab lines openChar closeChar (counter + 1) l i
      else fmbRight tab lines openChar closeChar counter l i
    else fmbRight tab lines openChar closeChar counter l i
termination_by rightMeasure lines currentLine currentCharIndex
decreasing_by
  all_goals
    rcases Move_right_decreases hmv with hlt | ⟨heq, hlt⟩
  all_goals
    try (exact Prod.Lex.left _ _ hlt)
  all_goals
    simp only [rightMeasure]
  all_goals
    rw [show lines.length - l = lines.length - currentLine from heq]
  all_goals
    exact Prod.Lex.right _ hlt

/-- Embeds TextEditor::FindMatchingBracket; none models the false return
(no matching bracket, reported through the boolean, not an error channel).
The two bounds guards compare ints, so an empty line rejects every index. -/
def FindMatchingBracket (tab : Nat) (lines : Lines) (aLine aCharIndex : Nat) :
    Option Coordinates :=
  if (aLine : Int) > (lines.length : Int) - 1 then none
  else
    if (aCharIndex : Int) > ((lines.getD aLine []).length : Int) - 1 then none
    else
      match matching_open_bracket ((lines.getD aLine []).getD aCharIndex 0) with
      | some openChar =>
        fmbLeft tab lines openChar ((lines.getD aLine []).getD aCharIndex 0)
          1 aLine aCharIndex
      | none =>
        match matching_close_bracket ((lines.getD aLine []).getD aCharIndex 0) with
        | some closeChar =>
          fmbRight tab lines ((lines.getD aLine []).getD aCharIndex 0) closeChar
            1 aLine aCharIndex
        | none => none

theorem fmbRight_step (tab : Nat) (lines : Lines) (openChar closeChar : Nat)
    (counter currentLine currentCharIndex l i : Nat)
    (hmv : Move lines currentLine currentCharIndex false false = some (l, i)) :
    fmbRight tab lines openChar closeChar counter currentLine currentCharIndex =
      (if i < (lines.getD l []).length then
        if (lines.getD l []).getD i 0 = closeChar then
          if counter - 1 = 0 then some ⟨l, GetCharacterColumn tab lines l i⟩
          else fmbRight tab lines openChar closeChar (counter - 1) l i
        else if (lines.getD l []).getD i 0 = openChar then
          fmbRight tab lines openChar closeChar (counter + 1) l i
        else fmbRight tab lines openChar closeChar counter l i
      else fmbRight tab lines openChar closeChar counter l i) := by
  rw [fmbRight]
  split
  · rename_i heq
    rw [hmv] at heq
    cases heq
  · rename_i l2 i2 heq
    rw [hmv] at heq
    injection heq with h4
    have h5 : l = l2 := congrArg Prod.fst h4
    have h6 : i = i2 := congrArg Prod.snd h4
    subst h5
    subst h6
    rfl

theorem fmbRight_none (tab : Nat) (lines : Lines) (openChar closeChar : Nat)
    (counter currentLine currentCharIndex : Nat)
    (hmv : Move lines currentLine currentCharIndex false false = none) :
    fmbRight tab lines openChar closeChar counter currentLine currentCharIndex
      = none := by
  rw [fmbRight]
  split
  · rfl
  · rename_i l2 i2 heq
    rw [hmv] at heq
    cases heq

theorem fmbRight_step_skip (tab : Nat) (lines : Lines) (openChar closeChar : Nat)
    (counter currentLine currentCharIndex l i : Nat)
    (hmv : Move lines currentLine currentCharIndex false false = some (l, i))
    (h1 : i < (lines.getD l []).length)
    (h2 : (lines.getD l []).getD i 0 ≠ closeChar)
    (h3 : (lines.getD l []).getD i 0 ≠ openChar) :
    fmbRight tab lines openChar closeChar counter currentLine currentCharIndex
      = fmbRight tab lines openChar closeChar counter l i := by
  rw [fmbRight_step tab lines openChar closeChar counter currentLine
    currentCharIndex l i hmv, if_pos h1, if_neg h2, if_neg h3]

theorem fmbRight_step_open (tab : Nat) (lines : Lines) (openChar closeChar : Nat)
    (counter currentLine currentCharIndex l i : Nat)
    (hmv : Move lines currentLine currentCharIndex false false = some (l, i))
    (h1 : i < (lines.getD l []).length)
    (h2 : (lines.getD l []).getD i 0 ≠ closeChar)
    (h3 : (lines.getD l []).getD i 0 = openChar) :
    fmbRight tab lines openChar closeChar counter currentLine currentCharIndex
      = fmbRight tab lines openChar closeChar (counter + 1) l i := by
  rw [fmbRight_step tab lines openChar closeChar counter currentLine
    currentCharIndex l i hmv, if_pos h1, if_neg h2, if_pos h3]

theorem fmbRight_step_close_cont (tab : Nat) (lines : Lines)
    (openChar closeChar : Nat) (counter currentLine currentCharIndex l i : Nat)
    (hmv : Move lines currentLine currentCharIndex false false = some (l, i))
    (h1 : i < (lines.getD l []).length)
    (h2 : (lines.getD l []).getD i 0 = closeChar)
    (h3 : counter - 1 ≠ 0) :
    fmbRight tab lines openChar closeChar counter currentLine currentCharIndex
      = fmbRight tab lines openChar closeChar (counter - 1) l i := by
  rw [fmbRight_step tab lines openChar closeChar counter currentLine
    currentCharIndex l i hmv, if_pos h1, if_pos h2, if_neg h3]

theorem fmbRight_step_close_found (tab : Nat) (lines : Lines)
    (openChar closeChar : Nat) (counter currentLine currentCharIndex l i : Nat)
    (hmv : Move lines currentLine currentCharIndex false false = some (l, i))
    (h1 : i < (lines.getD l []).length)
    (h2 : (lines.getD l []).getD i 0 = closeChar)
    (h3 : counter - 1 = 0) :
    fmbRight tab lines openChar closeChar counter currentLine currentCharIndex
      = some ⟨l, GetCharacterColumn tab lines l i⟩ := by
  rw [fmbRight_step tab lines openChar closeChar counter currentLine
    currentCharIndex l i hmv, if_pos h1, if_pos h2, if_pos h3]

theorem fmbRight_step_eol (tab : Nat) (lines : Lines) (openChar closeChar : Nat)
    (counter currentLine currentCharIndex l i : Nat)
    (hmv : Move lines currentLine currentCharIndex false false = some (l, i))
    (h1 : ¬ i < (lines.getD l []).length) :
    fmbRight tab lines openChar closeChar counter currentLine currentCharIndex
      = fmbRight tab lines openChar closeChar counter l i := by
  rw [fmbRight_step tab lines openChar closeChar counter currentLine
    currentCharIndex l i hmv, if_neg h1]

set_option maxRecDepth 16000 in
/-- C8: on the one-line document "(a(b)c)", FindMatchingBracket at line 0
index 0 (the first open parenthesis) succeeds with the coordinates of index
6 (the last close parenthesis); and when no matching bracket exists (here on
"(((" at index 0) it reports the failure by the none/false return rather
than any error channel. -/
theorem C8_findMatchingBracket_scenario :
    FindMatchingBracket 4 [[40, 97, 40, 98, 41, 99, 41]] 0 0 = some ⟨0, 6⟩ ∧
    FindMatchingBracket 4 [[40, 40, 40]] 0 0 = none := by
  constructor
  · rw [show FindMatchingBracket 4 [[40, 97, 40, 98, 41, 99, 41]] 0 0 =
        fmbRight 4 [[40, 97, 40, 98, 41, 99, 41]] 40 41 1 0 0 from by
      unfold FindMatchingBracket
      norm_num [matching_open_bracket, matching_close_bracket]]
    rw [fmbRight_step_skip 4 _ 40 41 1 0 0 0 1 (by decide) (by decide)
      (by decide) (by decide)]
    rw [fmbRight_step_open 4 _ 40 41 1 0 1 0 2 (by decide) (by decide)
      (by decide) (by decide)]
    rw [fmbRight_step_skip 4 _ 40 41 2 0 2 0 3 (by decide) (by decide)
      (by decide) (by decide)]
    rw [fmbRight_step_close_cont 4 _ 40 41 2 0 3 0 4 (by decide) (by decide)
      (by decide) (by decide)]
    rw [fmbRight_step_skip 4 _ 40 41 1 0 4 0 5 (by decide) (by decide)
      (by decide) (by decide)]
    rw [fmbRight_step_close_found 4 _ 40 41 1 0 5 0 6 (by decide) (by decide)
      (by decide) (by decide)]
    have hc : GetCharacterColumn 4 [[40, 97, 40, 98, 41, 99, 41]] 0 6 = 6 := by
      unfold GetCharacterColumn
      norm_num
      rw [gccGo_pos _ _ _ _ _ (by decide)]
      norm_num [UTF8CharLength_single]
      rw [gccGo_pos _ _ _ _ _ (by decide)]
      norm_num [UTF8CharLength_single]
      rw [gccGo_pos _ _ _ _ _ (by decide)]
      norm_num [UTF8CharLength_single]
      rw [gccGo_pos _ _ _ _ _ (by decide)]
      norm_num [UTF8CharLength_single]
      rw [gccGo_pos _ _ _ _ _ (by decide)]
      norm_num [UTF8CharLength_single]
      rw [gccGo_pos _ _ _ _ _ (by decide)]
      norm_num [UTF8CharLength_single]
      rw [gccGo_neg _ _ _ _ _ (by decide)]
    rw [hc]
  · rw [show FindMatchingBracket 4 [[40, 40, 40]] 0 0 =
        fmbRight 4 [[40, 40, 40]] 40 41 1 0 0 from by
      unfold FindMatchingBracket
      norm_num [matching_open_bracket, matching_close_bracket]]
    rw [fmbRight_step_open 4 _ 40 41 1 0 0 0 1 (by decide) (by decide)
      (by decide) (by decide)]
    rw [fmbRight_step_open 4 _ 40 41 2 0 1 0 2 (by decide) (by decide)
      (by decide) (by decide)]
    rw [fmbRight_step_eol 4 _ 40 41 3 0 2 0 3 (by decide) (by decide)]
    rw [fmbRight_none 4 _ 40 41 3 0 3 (by decide)]

instance : Inhabited Cursor := ⟨{}⟩

/-- Embeds TextEditor::ClearSelections: every active cursor collapses onto
its selection end. -/
def ClearSelections (s : EditorState) : EditorState :=
  { s with
    mCursors :=
      (s.mCursors.take (s.mCurrentCursor + 1)).map
        (fun c => { mInteractiveStart := c.GetSelectionEnd,
                    mInteractiveEnd := c.GetSelectionEnd }) ++
      s.mCursors.drop (s.mCurrentCursor + 1) }

/-- Embeds TextEditor::ClearExtraCursors: keep only cursor zero active. -/
def ClearExtraCursors (s : EditorState) : EditorState :=
  { s with mCurrentCursor := 0 }

/-- Embeds TextEditor::SetSelection(aStart, aEnd, aCursor): clamp both ends
into the document and store them as the cursor's interactive start and end
(SetCursorPosition with aClearSelection = false). -/
def SetSelection (tab : Nat) (lines : Lines) (aStart aEnd : Coordinates)
    (aCursor : Nat) (s : EditorState) : EditorState :=
  let minCoords : Coordinates := ⟨0, 0⟩
  let maxLine := lines.length - 1
  let maxCoords : Coordinates := ⟨maxLine, GetLineMaxColumn tab lines maxLine⟩
  let st := if aStart.lt minCoords then minCoords
    else if aStart.gt maxCoords then maxCoords else aStart
  let en := if aEnd.lt minCoords then minCoords
    else if aEnd.gt maxCoords then maxCoords else aEnd
  { s with mCursors := s.mCursors.set aCursor ⟨st, en⟩ }

/-- Match loop of TextEditor::FindNextOccurrence: consume the pattern bytes
one by one from (fline + lineOffset, cidx); at the end of a line only a
newline pattern byte matches (moving to the start of the next line); other
bytes compare after optional upper-to-lower case folding.  Returns the final
(lineOffset, char index) on a full match. -/
def matchGo (lines : Lines) (aCaseSensitive : Bool) (fline : Nat) :
    List Nat → Nat → Nat → Option (Nat × Nat)
  | [], lineOffset, cidx => some (lineOffset, cidx)
  | b :: rest, lineOffset, cidx =>
    if cidx = (lines.getD (fline + lineOffset) []).length then
      if b = 10 ∧ fline + lineOffset + 1 < lines.length then
        matchGo lines aCaseSensitive fline rest (lineOffset + 1) 0
      else none
    else
      let a := (lines.getD (fline + lineOffset) []).getD cidx 0
      let ca := if ¬ aCaseSensitive ∧ 65 ≤ a ∧ a ≤ 90 then a - 65 + 97 else a
      let cb := if ¬ aCaseSensitive ∧ 65 ≤ b ∧ b ≤ 90 then b - 65 + 97 else b
      if ca ≠ cb then none
      else matchGo lines aCaseSensitive fline rest lineOffset (cidx + 1)

/-- All (line, char index) positions of the buffer in scan order; each line
contributes indices 0..length (the end-of-line position included), which is
exactly the state space of the move-forward step of FindNextOccurrence. -/
def allPositions (lines : Lines) : List (Nat × Nat) :=
  (List.range lines.length).flatMap
    (fun l => (List.range ((lines.getD l []).length + 1)).map (fun i => (l, i)))

/-- Index of the first occurrence of a position in the scan order. -/
def posIdx (ps : List (Nat × Nat)) (p : Nat × Nat) : Nat :=
  match ps with
  | [] => 0
  | q :: rest => if q = p then 0 else posIdx rest p + 1

/-- The sequence of positions the FindNextOccurrence while-loop checks: it
checks the start position first, then steps forward one position at a time
(wrapping at the last line) and stops on returning to the start, so it
checks the rotation of the position cycle beginning at the start position.
For an out-of-range start the source loop never terminates (it can only
stop on reaching the start again); the embedding scans the cycle once. -/
def checkedSeq (lines : Lines) (init : Nat × Nat) : List (Nat × Nat) :=
  let ps := allPositions lines
  let k := posIdx ps init
  ps.drop k ++ ps.take k

/-- Scan of FindNextOccurrence: try the match function at each checked
position, producing the column coordinates of the first match. -/
def fnoScan (tab : Nat) (lines : Lines) (aCaseSensitive : Bool)
    (aText : List Nat) : List (Nat × Nat) → Option (Coordinates × Coordinates)
  | [] => none
  | (fl, fi) :: rest =>
    match matchGo lines aCaseSensitive fl aText 0 fi with
    | some (lineOffset, cidx) =>
      some (⟨fl, GetCharacterColumn tab lines fl fi⟩,
        ⟨fl + lineOffset, GetCharacterColumn tab lines (fl + lineOffset) cidx⟩)
    | none => fnoScan tab lines aCaseSensitive aText rest

/-- Embeds TextEditor::FindNextOccurrence.  The source asserts aTextSize >
0; in release builds the assert vanishes and an empty pattern matches
immediately at the start position, which is what this computes. -/
def FindNextOccurrence (tab : Nat) (lines : Lines) (aText : List Nat)
    (aFrom : Coordinates) (aCaseSensitive : Bool) :
    Option (Coordinates × Coordinates) :=
  let ifline := aFrom.mLine
  let ifindex := (GetCharacterIndexR tab lines aFrom).toNat
  fnoScan tab lines aCaseSensitive aText (checkedSeq lines (ifline, ifindex))

/-- Embeds the private TextEditor::SelectNextOccurrenceOf(aText, aTextSize,
aCursor, aCaseSensitive): find the next occurrence after the cursor's
interactive end and select it.  When FindNextOccurrence fails the source
passes the default-constructed (0,0) coordinates to SetSelection. -/
def SelectNextOccurrenceOfCursor (tab : Nat) (lines : Lines)
    (aText : List Nat) (aCaseSensitive : Bool) (aCursor : Int)
    (s : EditorState) : EditorState :=
  let cursor := if aCursor = -1 then s.mCurrentCursor else aCursor.toNat
  match FindNextOccurrence tab lines aText
      (s.mCursors.getD cursor default).mInteractiveEnd aCaseSensitive with
  | some (nextStart, nextEnd) => SetSelection tab lines nextStart nextEnd cursor s
  | none => SetSelection tab lines ⟨0, 0⟩ ⟨0, 0⟩ cursor s

/-- Embeds the public TextEditor::SelectNextOccurrenceOf(aText, aTextSize,
aCaseSensitive): clear selections and extra cursors, then select the next
occurrence at the current cursor. -/
def SelectNextOccurrenceOf (tab : Nat) (lines : Lines) (aText : List Nat)
    (aCaseSensitive : Bool) (s : EditorState) : EditorState :=
  SelectNextOccurrenceOfCursor tab lines aText aCaseSensitive (-1)
    (ClearExtraCursors (ClearSelections s))

theorem lineWalkEnd_eq_of_reachFrom {tab : Nat} {line : Line} {s t : Nat × Nat}
    (h : ReachFrom tab line s t) :
    lineWalkEnd tab line t.1 t.2 = lineWalkEnd tab line s.1 s.2 := by
  induction h with
  | refl => rfl
  | tail hab hbc ih =>
    rename_i b c
    rw [← ih]
    conv_rhs => rw [lineWalkEnd]
    rw [if_pos hbc.1, ← hbc.2]

theorem reach_le_maxCol {tab : Nat} {line : Line} {i c : Nat}
    (htab : 1 ≤ tab) (h : Reach tab line i c) :
    c ≤ glmcGo tab line 0 0 := by
  rw [glmcGo_eq_lineWalkEnd]
  rw [show lineWalkEnd tab line 0 0 = lineWalkEnd tab line i c from
    (lineWalkEnd_eq_of_reachFrom h).symm]
  exact reachFrom_col_le htab (lineWalkEnd_reachFrom tab line i c)

theorem mem_allPositions {lines : Lines} {l i : Nat}
    (hl : l < lines.length) (hi : i ≤ (lines.getD l []).length) :
    (l, i) ∈ allPositions lines := by
  unfold allPositions
  rw [List.mem_flatMap]
  refine ⟨l, List.mem_range.mpr hl, ?_⟩
  rw [List.mem_map]
  exact ⟨i, List.mem_range.mpr (by omega), rfl⟩

theorem posIdx_drop {p : Nat × Nat} :
    ∀ ps : List (Nat × Nat), p ∈ ps → ∃ rest, ps.drop (posIdx ps p) = p :: rest := by
  intro ps
  induction ps with
  | nil => intro h; cases h
  | cons q t ih =>
    intro hmem
    by_cases hq : q = p
    · subst hq
      exact ⟨t, by simp [posIdx]⟩
    · have hpt : p ∈ t := by
        rcases List.mem_cons.mp hmem with h1 | h1
        · exact absurd h1.symm hq
        · exact h1
      obtain ⟨rest, hrest⟩ := ih hpt
      refine ⟨rest, ?_⟩
      rw [show posIdx (q :: t) p = posIdx t p + 1 from by simp [posIdx, hq]]
      simpa using hrest

theorem checkedSeq_head {lines : Lines} {p : Nat × Nat}
    (hmem : p ∈ allPositions lines) :
    ∃ rest, checkedSeq lines p = p :: rest := by
  obtain ⟨rest, hrest⟩ := posIdx_drop (allPositions lines) hmem
  refine ⟨rest ++ (allPositions lines).take (posIdx (allPositions lines) p), ?_⟩
  show (allPositions lines).drop (posIdx (allPositions lines) p) ++
    (allPositions lines).take (posIdx (allPositions lines) p) = _
  rw [hrest]
  rfl

theorem findNextOccurrence_empty (tab : Nat) (lines : Lines) (htab : 1 ≤ tab)
    (l i c : Nat) (cs : Bool) (hl : l < lines.length)
    (hreach : Reach tab (lines.getD l []) i c)
    (hile : i ≤ (lines.getD l []).length) :
    FindNextOccurrence tab lines [] ⟨l, c⟩ cs = some (⟨l, c⟩, ⟨l, c⟩) := by
  have hR : GetCharacterIndexR tab lines ⟨l, c⟩ = (i : Int) :=
    GetCharacterIndexFromColumn_reach htab hl false hreach
  have hcol : GetCharacterColumn tab lines l i = c := by
    have h2 := charIndexToColumn_reach hl hreach
    unfold CharacterIndexToColumn at h2
    exact h2
  obtain ⟨rest, hrot⟩ := checkedSeq_head (mem_allPositions hl hile)
  unfold FindNextOccurrence
  dsimp only
  rw [hR, Int.toNat_natCast, hrot]
  simp only [fnoScan, matchGo, Nat.add_zero, hcol]

/-- C7 (amended): searching with an empty pattern raises nothing and leaves
the buffer untouched; with a single active cursor without a selection at an
exact glyph-boundary position the whole editor state is unchanged.  The
unamended claim fails because the public SelectNextOccurrenceOf first
collapses selections and drops extra cursors regardless of the pattern (and
in debug builds FindNextOccurrence asserts aTextSize > 0). -/
theorem C7_empty_pattern_noop (tab : Nat) (lines : Lines) (htab : 1 ≤ tab)
    (l i c la : Nat) (cs : Bool) (hl : l < lines.length)
    (hreach : Reach tab (lines.getD l []) i c)
    (hile : i ≤ (lines.getD l []).length) :
    SelectNextOccurrenceOf tab lines [] cs ⟨0, la, [⟨⟨l, c⟩, ⟨l, c⟩⟩]⟩
      = ⟨0, la, [⟨⟨l, c⟩, ⟨l, c⟩⟩]⟩ := by
  have hfno : FindNextOccurrence tab lines [] ⟨l, c⟩ cs
      = some (⟨l, c⟩, ⟨l, c⟩) :=
    findNextOccurrence_empty tab lines htab l i c cs hl hreach hile
  have hltz : (⟨l, c⟩ : Coordinates).lt ⟨0, 0⟩ = false := by
    simp [Coordinates.lt]
  have hgtm : (⟨l, c⟩ : Coordinates).gt
      ⟨lines.length - 1, GetLineMaxColumn tab lines (lines.length - 1)⟩ = false := by
    unfold Coordinates.gt
    simp only
    by_cases hml : l = lines.length - 1
    · rw [if_neg (by omega : ¬ (l ≠ lines.length - 1))]
      have hcle : c ≤ GetLineMaxColumn tab lines (lines.length - 1) := by
        unfold GetLineMaxColumn
        rw [if_neg (Nat.not_le.mpr (by omega : lines.length - 1 < lines.length))]
        rw [← hml]
        exact reach_le_maxCol htab hreach
      simp [Nat.not_lt.mpr hcle]
    · rw [if_pos hml]
      simp [Nat.not_lt.mpr (by omega : lines.length - 1 ≥ l)]
  have hsel : SetSelection tab lines ⟨l, c⟩ ⟨l, c⟩ 0
      ⟨0, la, [⟨⟨l, c⟩, ⟨l, c⟩⟩]⟩ = ⟨0, la, [⟨⟨l, c⟩, ⟨l, c⟩⟩]⟩ := by
    unfold SetSelection
    simp only [hltz, hgtm, Bool.false_eq_true, if_false]
    rfl
  have hclear : ClearExtraCursors (ClearSelections ⟨0, la, [⟨⟨l, c⟩, ⟨l, c⟩⟩]⟩)
      = ⟨0, la, [⟨⟨l, c⟩, ⟨l, c⟩⟩]⟩ := by
    unfold ClearExtraCursors ClearSelections
    simp [Cursor.GetSelectionEnd, Coordinates.gt]
  unfold SelectNextOccurrenceOf
  rw [hclear]
  unfold SelectNextOccurrenceOfCursor
  norm_num
  rw [hfno]
  exact hsel

/-- C7 witness: tab 4, buffer "abc", a single cursor parked at (0,2); the
empty-pattern search leaves the state unchanged. -/
theorem C7_empty_pattern_noop_witness :
    SelectNextOccurrenceOf 4 [[97, 98, 99]] [] true
      ⟨0, 7, [⟨⟨0, 2⟩, ⟨0, 2⟩⟩]⟩ = ⟨0, 7, [⟨⟨0, 2⟩, ⟨0, 2⟩⟩]⟩ :=
  C7_empty_pattern_noop 4 [[97, 98, 99]] (by omega) 0 2 2 7 true (by decide)
    (Relation.ReflTransGen.tail
      (show ReachFrom 4 (([[97, 98, 99]] : Lines).getD 0 []) (0, 0) (1, 1) from
        Relation.ReflTransGen.single ⟨by decide, by decide⟩)
      ⟨by decide, by decide⟩)
    (by decide)

/-- C7 counterexample: with a single cursor holding the selection
(0,0)-(0,2) on the buffer "abc", the empty-pattern SelectNextOccurrenceOf
collapses the selection, so the cursors change and the call is not a
no-op. -/
theorem C7_counterexample :
    SelectNextOccurrenceOf 4 [[97, 98, 99]] [] true
      ⟨0, 0, [⟨⟨0, 0⟩, ⟨0, 2⟩⟩]⟩ ≠ ⟨0, 0, [⟨⟨0, 0⟩, ⟨0, 2⟩⟩]⟩ := by
  have h1 : ClearExtraCursors (ClearSelections ⟨0, 0, [⟨⟨0, 0⟩, ⟨0, 2⟩⟩]⟩)
      = ⟨0, 0, [⟨⟨0, 2⟩, ⟨0, 2⟩⟩]⟩ := by decide
  have hfno : FindNextOccurrence 4 [[97, 98, 99]] [] ⟨0, 2⟩ true
      = some (⟨0, 2⟩, ⟨0, 2⟩) :=
    findNextOccurrence_empty 4 [[97, 98, 99]] (by omega) 0 2 2 true (by decide)
      (Relation.ReflTransGen.tail
        (show ReachFrom 4 (([[97, 98, 99]] : Lines).getD 0 []) (0, 0) (1, 1) from
          Relation.ReflTransGen.single ⟨by decide, by decide⟩)
        ⟨by decide, by decide⟩)
      (by decide)
  have hmax : GetLineMaxColumn 4 [[97, 98, 99]] 0 = 3 := by
    unfold GetLineMaxColumn
    norm_num
    rw [glmcGo_pos _ _ _ _ (by decide)]
    norm_num [UTF8CharLength_single]
    rw [glmcGo_pos _ _ _ _ (by decide)]
    norm_num [UTF8CharLength_single]
    rw [glmcGo_pos _ _ _ _ (by decide)]
    norm_num [UTF8CharLength_single]
    rw [glmcGo_neg _ _ _ _ (by decide)]
  unfold SelectNextOccurrenceOf
  rw [h1]
  unfold SelectNextOccurrenceOfCursor
  norm_num
  rw [hfno]
  dsimp only
  unfold SetSelection
  dsimp only
  norm_num
  rw [hmax]
  decide

/-- Embeds struct VisualLine as used by EnsureVisualLines: one renderable
row, either a document line segment or a ghost row (value-initialized fields
are zero/false as in the source). -/
structure VisualLine where
  mDocumentLine : Nat := 0
  mWrapStartColumn : Nat := 0
  mWrapEndColumn : Nat := 0
  mIsGhost : Bool := false
  mGhostIndex : Nat := 0
deriving DecidableEq

/-- Embeds the hidden LineRange pair (normalized so start le end by
SetHiddenLineRanges). -/
structure LineRange where
  mStartLine : Nat := 0
  mEndLine : Nat := 0
deriving DecidableEq

/-- Embeds the projection-relevant part of a ghost line: its anchor line
(the displayed text is opaque to the projection). -/
structure GhostLine where
  mAnchorLine : Int := 0
deriving DecidableEq

instance : Inhabited LineRange := ⟨{}⟩

instance : Inhabited GhostLine := ⟨{}⟩

/-- Embeds std::isspace on a byte (C locale): space and the five control
whitespace bytes. -/
def isspaceByte (c : Nat) : Bool := c = 32 ∨ (9 ≤ c ∧ c ≤ 13)

/-- Anchor clamping of EnsureVisualLines: ghost anchors clamp into
[0, line_count]. -/
def clampAnchor (a : Int) (line_count : Nat) : Nat :=
  if a < 0 then 0
  else if a > (line_count : Int) then line_count
  else a.toNat

/-- Ghost entries anchored at line k, in stored order, as built by the
ghost_buckets pass of EnsureVisualLines. -/
def ghostBucket (ghostLines : List GhostLine) (line_count k : Nat) :
    List VisualLine :=
  ((List.range ghostLines.length).filter
    (fun i => clampAnchor (ghostLines.getD i default).mAnchorLine line_count = k)).map
    (fun i => { mIsGhost := true, mGhostIndex := i })

/-- Hidden-range pointer advance of EnsureVisualLines: skip ranges that end
before the current document line. -/
def skipRanges (ranges : List LineRange) (hi doc_line : Nat) : Nat :=
  if hi < ranges.length ∧ (ranges.getD hi default).mEndLine < doc_line then
    skipRanges ranges (hi + 1) doc_line
  else hi
termination_by ranges.length - hi

/-- Embeds the append_document_visual_line lambda: emit one entry for an
in-range document line, clamping the end column up to the start column. -/
def appendDocumentVisualLine (line_count doc_line start_column end_column : Nat) :
    List VisualLine :=
  if doc_line ≥ line_count then []
  else [{ mDocumentLine := doc_line, mWrapStartColumn := start_column,
          mWrapEndColumn := max start_column end_column }]

/-- Break-point selection of the wrap loop: prefer the last whitespace break
strictly inside the segment, else the current glyph start when past the
segment start, else the position after the current glyph; a final guard
forces progress. -/
def pickBreak (seg_i seg_c gi gcs s1 s2 : Nat) (lbreak : Option (Nat × Nat)) :
    Nat × Nat :=
  let bb := match lbreak with
    | some (bi, bc) =>
      if seg_i < bi ∧ seg_c < bc then (bi, bc)
      else if seg_c < gcs then (gi, gcs) else (s1, s2)
    | none => if seg_c < gcs then (gi, gcs) else (s1, s2)
  if bb.1 ≤ seg_i ∨ bb.2 ≤ seg_c then (s1, s2) else bb

theorem pickBreak_gt {seg_i seg_c gi gcs s1 s2 : Nat} {lbreak : Option (Nat × Nat)}
    (h1 : seg_i ≤ gi) (h2 : gi < s1) :
    seg_i < (pickBreak seg_i seg_c gi gcs s1 s2 lbreak).1 := by
  unfold pickBreak
  cases lbreak with
  | none =>
    dsimp only
    by_cases hg : seg_c < gcs
    · rw [if_pos hg]
      by_cases hs : gi ≤ seg_i ∨ gcs ≤ seg_c
      · rw [if_pos hs]
        omega
      · rw [if_neg hs]
        dsimp only
        omega
    · rw [if_neg hg]
      rw [ite_self]
      omega
  | some p =>
    obtain ⟨bi, bc⟩ := p
    dsimp only
    by_cases hb : seg_i < bi ∧ seg_c < bc
    · rw [if_pos hb, if_neg (by omega : ¬ (bi ≤ seg_i ∨ bc ≤ seg_c))]
      exact hb.1
    · rw [if_neg hb]
      by_cases hg : seg_c < gcs
      · rw [if_pos hg]
        by_cases hs : gi ≤ seg_i ∨ gcs ≤ seg_c
        · rw [if_pos hs]
          omega
        · rw [if_neg hs]
          dsimp only
          omega
      · rw [if_neg hg]
        rw [ite_self]
        omega

/-- Word-wrap segmentation loop of append_wrapped_document_lines.  The
invariant argument (segment start at or before the scan position) holds at
every call site in the source and makes the forced-progress guard
terminate. -/
def wrapLoop (tab : Nat) (line : Line) (wrapEff lineMaxCol : Nat)
    (seg_i seg_c ci col : Nat) (lbreak : Option (Nat × Nat))
    (hinv : seg_i ≤ ci) : List (Nat × Nat) :=
  if h : ci < line.length then
    let s := MoveCharIndexAndColumn tab line ci col
    let lb2 := if isspaceByte (line.getD ci 0) then some (s.1, s.2) else lbreak
    if s.2 - seg_c ≤ wrapEff then
      wrapLoop tab line wrapEff lineMaxCol seg_i seg_c s.1 s.2 lb2
        (by
          show seg_i ≤ (MoveCharIndexAndColumn tab line ci col).1
          have := UTF8CharLength_pos (line.getD ci 0)
          simp only [MoveCharIndexAndColumn]
          omega)
    else
      let fin := pickBreak seg_i seg_c ci col s.1 s.2 lb2
      (seg_c, fin.2) :: wrapLoop tab line wrapEff lineMaxCol fin.1 fin.2 fin.1 fin.2
        none (Nat.le_refl _)
  else
    if lineMaxCol = 0 ∨ seg_c < lineMaxCol then [(seg_c, lineMaxCol)] else []
termination_by (line.length - seg_i, line.length + 1 - ci)
decreasing_by
  · apply Prod.Lex.right
    have := UTF8CharLength_pos (line.getD ci 0)
    simp only [MoveCharIndexAndColumn]
    omega
  · apply Prod.Lex.left
    refine Nat.sub_lt_sub_left (by omega) ?_
    apply pickBreak_gt hinv
    have := UTF8CharLength_pos (line.getD ci 0)
    simp only [MoveCharIndexAndColumn]
    omega

/-- Embeds the append_wrapped_document_lines lambda. -/
def appendWrappedDocumentLines (tab : Nat) (lines : Lines) (wrapEff : Nat)
    (doc_line : Nat) : List VisualLine :=
  let lineMaxCol := GetLineMaxColumn tab lines doc_line
  if lineMaxCol ≤ wrapEff ∨ wrapEff ≤ 0 then
    appendDocumentVisualLine lines.length doc_line 0 lineMaxCol
  else
    (wrapLoop tab (lines.getD doc_line []) wrapEff lineMaxCol 0 0 0 0 none
      (Nat.le_refl 0)).flatMap
      (fun p => appendDocumentVisualLine lines.length doc_line p.1 p.2)

/-- Main document-line loop of EnsureVisualLines: ghost entries anchored at
the line, then skip the line when it lies inside the current hidden range,
else emit its document entries (wrapped or whole). -/
def evlGo (tab : Nat) (lines : Lines) (ghostLines : List GhostLine)
    (ranges : List LineRange) (wordWrapEnabled : Bool) (wrapEff : Nat)
    (doc_line hidden_index : Nat) : List VisualLine :=
  if doc_line < lines.length then
    ghostBucket ghostLines lines.length doc_line ++
    (let hi2 := skipRanges ranges hidden_index doc_line
     (if hi2 < ranges.length ∧ (ranges.getD hi2 default).mStartLine ≤ doc_line ∧
        doc_line ≤ (ranges.getD hi2 default).mEndLine then []
      else if wordWrapEnabled then appendWrappedDocumentLines tab lines wrapEff doc_line
      else appendDocumentVisualLine lines.length doc_line 0
        (GetLineMaxColumn tab lines doc_line)) ++
     evlGo tab lines ghostLines ranges wordWrapEnabled wrapEff (doc_line + 1) hi2)
  else ghostBucket ghostLines lines.length lines.length
termination_by lines.length - doc_line

/-- Embeds the visual-line projection computed by
TextEditor::EnsureVisualLines (the surrounding revision-counter check only
memoizes this computation and is not part of the projection itself). -/
def EnsureVisualLines (tab : Nat) (lines : Lines) (ghostLines : List GhostLine)
    (hiddenLineRanges : List LineRange) (wordWrapEnabled : Bool)
    (mWrapColumn : Nat) : List VisualLine :=
  let wrapEff := if wordWrapEnabled then max 1 mWrapColumn else 0
  evlGo tab lines ghostLines hiddenLineRanges wordWrapEnabled wrapEff 0 0

theorem ghostBucket_nil (line_count k : Nat) : ghostBucket [] line_count k = [] := rfl

theorem skipRanges_single_zero (r : LineRange) (d : Nat) :
    skipRanges [r] 0 d = if r.mEndLine < d then 1 else 0 := by
  rw [skipRanges]
  by_cases h : r.mEndLine < d
  · rw [if_pos (by simpa using h), if_pos h]
    rw [skipRanges]
    simp
  · rw [if_neg (by simpa using h), if_neg h]

theorem skipRanges_single_one (r : LineRange) (d : Nat) :
    skipRanges [r] 1 d = 1 := by
  rw [skipRanges]
  simp

theorem evlGo_single_mem (tab : Nat) (lines : Lines) (r : LineRange)
    (wrapEff : Nat) (hse : r.mStartLine ≤ r.mEndLine) (d d0 hi : Nat)
    (hhi : hi = 0 ∨ (hi = 1 ∧ r.mEndLine < d0)) :
    (∃ v ∈ evlGo tab lines [] [r] false wrapEff d0 hi, v.mDocumentLine = d) ↔
      (d0 ≤ d ∧ d < lines.length ∧ ¬ (r.mStartLine ≤ d ∧ d ≤ r.mEndLine)) := by
  by_cases hlt : d0 < lines.length
  · rw [evlGo, if_pos hlt]
    have hhi2 : skipRanges [r] hi d0 = 0 ∨
        (skipRanges [r] hi d0 = 1 ∧ r.mEndLine < d0) := by
      rcases hhi with h0 | ⟨h1, he⟩
      · rw [h0, skipRanges_single_zero]
        by_cases h : r.mEndLine < d0
        · rw [if_pos h]
          exact Or.inr ⟨rfl, h⟩
        · rw [if_neg h]
          exact Or.inl rfl
      · rw [h1, skipRanges_single_one]
        exact Or.inr ⟨rfl, he⟩
    have hinv2 : skipRanges [r] hi d0 = 0 ∨
        (skipRanges [r] hi d0 = 1 ∧ r.mEndLine < d0 + 1) := by
      rcases hhi2 with h0 | ⟨h1, he⟩
      · exact Or.inl h0
      · exact Or.inr ⟨h1, by omega⟩
    have ih := evlGo_single_mem tab lines r wrapEff hse d (d0 + 1)
      (skipRanges [r] hi d0) hinv2
    rw [ghostBucket_nil]
    simp only [List.nil_append]
    constructor
    · rintro ⟨v, hv, hvd⟩
      rcases List.mem_append.mp hv with hv1 | hv2
      · -- v comes from the current line entry; it is not hidden and d = d0
        by_cases hhid : skipRanges [r] hi d0 < ([r] : List LineRange).length ∧
            (([r] : List LineRange).getD (skipRanges [r] hi d0) default).mStartLine ≤ d0 ∧
            d0 ≤ (([r] : List LineRange).getD (skipRanges [r] hi d0) default).mEndLine
        · rw [if_pos hhid] at hv1
          cases hv1
        · rw [if_neg hhid] at hv1
          simp only [Bool.false_eq_true, if_false] at hv1
          unfold appendDocumentVisualLine at hv1
          rw [if_neg (by omega : ¬ d0 ≥ lines.length)] at hv1
          rcases List.mem_singleton.mp hv1 with hveq
          rw [hveq] at hvd
          simp only at hvd
          subst hvd
          refine ⟨Nat.le_refl _, hlt, ?_⟩
          intro ⟨hs, he⟩
          apply hhid
          rcases hhi2 with h0 | ⟨h1, hgt⟩
          · rw [h0]
            rw [h0] at hinv2
            refine ⟨by simp, ?_, ?_⟩
            · simpa using hs
            · -- if the range ended before d0, skipRanges would be 1
              rcases hhi with hz | ⟨h1b, _⟩
              · rw [hz, skipRanges_single_zero] at h0
                by_cases hcend : r.mEndLine < d0
                · rw [if_pos hcend] at h0
                  cases h0
                · simpa using Nat.not_lt.mp hcend
              · rw [h1b, skipRanges_single_one] at h0
                cases h0
          · omega
      · -- v comes from the recursion
        have hrec := ih.mp ⟨v, hv2, hvd⟩
        exact ⟨by omega, hrec.2.1, hrec.2.2⟩
    · rintro ⟨hd0, hdlt, hnot⟩
      by_cases hd : d = d0
      · subst hd
        have hnothid : ¬ (skipRanges [r] hi d < ([r] : List LineRange).length ∧
            (([r] : List LineRange).getD (skipRanges [r] hi d) default).mStartLine ≤ d ∧
            d ≤ (([r] : List LineRange).getD (skipRanges [r] hi d) default).mEndLine) := by
          rintro ⟨hlen, hs, he⟩
          have hz : skipRanges [r] hi d = 0 := by
            simp only [List.length_cons, List.length_nil] at hlen
            omega
          rw [hz] at hs he
          simp only [List.getD_cons_zero] at hs he
          exact hnot ⟨hs, he⟩
        refine ⟨VisualLine.mk d 0 (max 0 (GetLineMaxColumn tab lines d)) false 0,
          ?_, rfl⟩
        apply List.mem_append.mpr
        left
        rw [if_neg hnothid]
        simp only [Bool.false_eq_true, if_false]
        unfold appendDocumentVisualLine
        rw [if_neg (by omega : ¬ d ≥ lines.length)]
        exact List.mem_singleton.mpr rfl
      · have hrec := ih.mpr ⟨by omega, hdlt, hnot⟩
        obtain ⟨v, hv, hvd⟩ := hrec
        exact ⟨v, List.mem_append.mpr (Or.inr hv), hvd⟩
  · rw [evlGo, if_neg hlt, ghostBucket_nil]
    constructor
    · rintro ⟨v, hv, _⟩
      exact absurd hv (List.not_mem_nil v)
    · rintro ⟨h1, h2, _⟩
      omega
termination_by lines.length - d0

theorem ensureVisualLines_single_mem (tab : Nat) (lines : Lines) (r : LineRange)
    (mWrapColumn : Nat) (hse : r.mStartLine ≤ r.mEndLine) (d : Nat) :
    (∃ v ∈ EnsureVisualLines tab lines [] [r] false mWrapColumn,
      v.mDocumentLine = d) ↔
      (d < lines.length ∧ ¬ (r.mStartLine ≤ d ∧ d ≤ r.mEndLine)) := by
  unfold EnsureVisualLines
  simp only [Bool.false_eq_true, if_false]
  rw [evlGo_single_mem tab lines r 0 hse d 0 0 (Or.inl rfl)]
  omega

/-- C6 (amended): for a hidden line range [start, end] (start le end), the
visual-line projection (no ghosts, word wrap off) omits all of the lines
start through end inclusive, the range's start line included, and keeps
exactly the in-range document lines outside the range: a document line d has
an entry iff d is in the document and not inside the hidden range.  The
unamended claim fails because the start line is hidden too; a collaborator
keeps the fold's start line visible by passing [start+1, end] (as the
folding collaborator's IsLineHidden computes). -/
theorem C6_hidden_range_omits_start_line (tab : Nat) (lines : Lines)
    (r : LineRange) (mWrapColumn : Nat) (hse : r.mStartLine ≤ r.mEndLine)
    (d : Nat) :
    (∃ v ∈ EnsureVisualLines tab lines [] [r] false mWrapColumn,
      v.mDocumentLine = d) ↔
      (d < lines.length ∧ ¬ (r.mStartLine ≤ d ∧ d ≤ r.mEndLine)) :=
  ensureVisualLines_single_mem tab lines r mWrapColumn hse d

/-- C6 witness: a three-line document with hidden range [0,1]; line 2 is
present in the projection because it is in the document and outside the
range. -/
theorem C6_hidden_range_omits_start_line_witness :
    (∃ v ∈ EnsureVisualLines 4 [[97], [98], [99]] [] [⟨0, 1⟩] false 0,
      v.mDocumentLine = 2) ↔
      (2 < ([[97], [98], [99]] : Lines).length ∧ ¬ ((0 : Nat) ≤ 2 ∧ 2 ≤ 1)) :=
  C6_hidden_range_omits_start_line 4 [[97], [98], [99]] ⟨0, 1⟩ 0 (by decide) 2

/-- C6 counterexample: with hidden range [0,1] on a three-line document the
range's start line 0 is NOT present in the projection, contradicting the
claim that only lines start+1 through end are omitted and the start line
remains visible as an anchor row. -/
theorem C6_counterexample :
    ¬ ∃ v ∈ EnsureVisualLines 4 [[97], [98], [99]] [] [⟨0, 1⟩] false 0,
      v.mDocumentLine = 0 := by
  intro hex
  have h := (ensureVisualLines_single_mem 4 [[97], [98], [99]] ⟨0, 1⟩ 0
    (by decide) 0).mp hex
  exact h.2 ⟨Nat.le_refl 0, by omega⟩

/-- Embeds TextEditor::RemoveGlyphsFromLine(aLine, aStartChar, aEndChar):
erase the glyph range [aStartChar, aEndChar) of the line, or to the end of
the line when aEndChar is the -1 default (modelled as none). -/
def RemoveGlyphsFromLine (lines : Lines) (aLine aStartChar : Nat)
    (aEndChar : Option Nat) : Lines :=
  let line := lines.getD aLine []
  lines.set aLine
    (line.take aStartChar ++ (match aEndChar with
      | none => []
      | some e => line.drop e))

/-- Embeds TextEditor::AddGlyphsToLine(aLine, aTargetIndex, source range):
insert the glyphs at the target index of the line. -/
def AddGlyphsToLine (lines : Lines) (aLine aTargetIndex : Nat)
    (glyphs : Line) : Lines :=
  let line := lines.getD aLine []
  lines.set aLine (line.take aTargetIndex ++ glyphs ++ line.drop aTargetIndex)

/-- Embeds the buffer effect of TextEditor::InsertLine(aIndex): insert an
empty line.  (Its cursor shifting touches only mState, which every caller
modelled here overwrites with an EditorState snapshot afterwards.) -/
def InsertLine (lines : Lines) (aIndex : Nat) : Lines :=
  lines.insertIdx aIndex []

/-- Embeds the buffer effect of TextEditor::RemoveLine(aIndex). -/
def RemoveLine (lines : Lines) (aIndex : Nat) : Lines :=
  lines.eraseIdx aIndex

/-- Embeds the buffer effect of TextEditor::RemoveLines(aStart, aEnd):
erase the line range [aStart, aEnd). -/
def RemoveLines (lines : Lines) (aStart aEnd : Nat) : Lines :=
  lines.take aStart ++ lines.drop aEnd

/-- Inner byte loop of TextEditor::InsertTextAt: insert up to d bytes (the
declared UTF-8 length) one glyph at a time, stopping at a NUL byte (the end
of the C string).  Returns the updated line, char index and the unconsumed
byte stream. -/
def insChunk : Nat → List Nat → Line → Nat → Line × Nat × List Nat
  | 0, stream, line, cidx => (line, cidx, stream)
  | _ + 1, [], line, cidx => (line, cidx, [])
  | d + 1, b :: rest, line, cidx =>
    if b = 0 then (line, cidx, b :: rest)
    else insChunk d rest (line.take cidx ++ [b] ++ line.drop cidx) (cidx + 1)

theorem insChunk_stream_le :
    ∀ (d : Nat) (stream : List Nat) (line : Line) (cidx : Nat),
      ((insChunk d stream line cidx).2.2).length ≤ stream.length := by
  intro d
  induction d with
  | zero => intro stream line cidx; exact Nat.le_refl _
  | succ d ih =>
    intro stream line cidx
    cases stream with
    | nil => exact Nat.le_refl _
    | cons b rest =>
      by_cases hb : b = 0
      · simp [insChunk, hb]
      · simp only [insChunk, hb, if_false]
        have := ih rest (line.take cidx ++ [b] ++ line.drop cidx) (cidx + 1)
        simp only [List.length_cons]
        omega

theorem insChunk_stream_lt (d : Nat) (b : Nat) (rest : List Nat) (line : Line)
    (cidx : Nat) (hb : b ≠ 0) (hd : 0 < d) :
    ((insChunk d (b :: rest) line cidx).2.2).length < (b :: rest).length := by
  cases d with
  | zero => omega
  | succ d =>
    simp only [insChunk, hb, if_false]
    have := insChunk_stream_le d rest (line.take cidx ++ [b] ++ line.drop cidx)
      (cidx + 1)
    simp only [List.length_cons]
    omega

/-- Main loop of TextEditor::InsertTextAt: skip CR bytes, split the line at
the char index on an LF (InsertLine, AddGlyphsToLine with the tail,
RemoveGlyphsFromLine), insert other glyphs byte by byte; a NUL terminates.
Returns the buffer and the final (line, char index). -/
def insertTextAtGo (lines : Lines) (line cidx : Nat) (text : List Nat) :
    Lines × Nat × Nat :=
  match text with
  | [] => (lines, line, cidx)
  | b :: rest =>
    if b = 0 then (lines, line, cidx)
    else if b = 13 then insertTextAtGo lines line cidx rest
    else if b = 10 then
      insertTextAtGo
        (if cidx < (lines.getD line []).length then
          RemoveGlyphsFromLine
            (AddGlyphsToLine (InsertLine lines (line + 1)) (line + 1) 0
              ((lines.getD line []).drop cidx))
            line cidx none
        else InsertLine lines (line + 1))
        (line + 1) 0 rest
    else
      insertTextAtGo
        (lines.set line
          (insChunk (UTF8CharLength b) (b :: rest) (lines.getD line []) cidx).1)
        line
        (insChunk (UTF8CharLength b) (b :: rest) (lines.getD line []) cidx).2.1
        (insChunk (UTF8CharLength b) (b :: rest) (lines.getD line []) cidx).2.2
termination_by text.length
decreasing_by
  · simp only [List.length_cons]
    omega
  · simp only [List.length_cons]
    omega
  · rename_i hb0 _ _
    exact insChunk_stream_lt _ _ rest (lines.getD line []) cidx hb0
      (UTF8CharLength_pos _)

/-- Embeds TextEditor::InsertTextAt(aWhere, aValue): resolve the char index
of the start coordinates and run the insertion loop. -/
def InsertTextAt (tab : Nat) (lines : Lines) (aWhere : Coordinates)
    (aValue : List Nat) : Lines × Nat × Nat :=
  insertTextAtGo lines aWhere.mLine ((GetCharacterIndexR tab lines aWhere).toNat)
    aValue

/-- Embeds the buffer effect of TextEditor::DeleteRange(aStart, aEnd).  (Its
mid-loop cursor adjustments touch only mState, which every modelled caller
overwrites with a snapshot.) -/
def DeleteRange (tab : Nat) (lines : Lines) (aStart aEnd : Coordinates) : Lines :=
  if aEnd = aStart then lines
  else
    let start := (GetCharacterIndexL tab lines aStart).toNat
    let stop := (GetCharacterIndexR tab lines aEnd).toNat
    if aStart.mLine = aEnd.mLine then
      let n := GetLineMaxColumn tab lines aStart.mLine
      if aEnd.mColumn ≥ n then RemoveGlyphsFromLine lines aStart.mLine start none
      else RemoveGlyphsFromLine lines aStart.mLine start (some stop)
    else
      let l1 := RemoveGlyphsFromLine lines aStart.mLine start none
      let l2 := RemoveGlyphsFromLine l1 aEnd.mLine 0 (some stop)
      if aStart.mLine < aEnd.mLine then
        RemoveLines
          (AddGlyphsToLine l2 aStart.mLine ((l2.getD aStart.mLine []).length)
            (l2.getD aEnd.mLine []))
          (aStart.mLine + 1) (aEnd.mLine + 1)
      else l2

/-- Embeds the buffer effect of TextEditor::SetTextLines: the given line
array, or one empty line when it is empty. -/
def SetTextLines (aLines : List (List Nat)) : Lines :=
  if aLines.isEmpty then [[]] else aLines

/-- Embeds enum UndoOperationType. -/
inductive UndoOperationType where
  | Add : UndoOperationType
  | Delete : UndoOperationType
deriving DecidableEq

/-- Embeds struct UndoOperation. -/
structure UndoOperation where
  mText : List Nat
  mStart : Coordinates
  mEnd : Coordinates
  mType : UndoOperationType
deriving DecidableEq

/-- Embeds struct UndoRecord: operations plus the EditorState snapshots
before and after the edit. -/
structure UndoRecord where
  mOperations : List UndoOperation
  mBefore : EditorState
  mAfter : EditorState
deriving DecidableEq

instance : Inhabited UndoRecord := ⟨⟨[], {}, {}⟩⟩

/-- Embeds struct TextEditor itself, restricted to the fields the modelled
operations touch: the buffer, the cursor state and the undo history. -/
structure Editor where
  mLines : Lines
  mState : EditorState
  mUndoBuffer : List UndoRecord
  mUndoIndex : Nat
  mReadOnly : Bool
deriving DecidableEq

/-- Buffer effect of replaying one operation inside UndoRecord::Undo:
operations with empty text are skipped; an Add operation is undone by
DeleteRange(start, end) and a Delete operation by InsertTextAt(start,
text). -/
def undoOpApply (tab : Nat) (lines : Lines) (op : UndoOperation) : Lines :=
  if op.mText = [] then lines
  else match op.mType with
    | UndoOperationType.Delete => (InsertTextAt tab lines op.mStart op.mText).1
    | UndoOperationType.Add => DeleteRange tab lines op.mStart op.mEnd

/-- Buffer effect of replaying one operation inside UndoRecord::Redo. -/
def redoOpApply (tab : Nat) (lines : Lines) (op : UndoOperation) : Lines :=
  if op.mText = [] then lines
  else match op.mType with
    | UndoOperationType.Delete => DeleteRange tab lines op.mStart op.mEnd
    | UndoOperationType.Add => (InsertTextAt tab lines op.mStart op.mText).1

/-- Embeds TextEditor::UndoRecord::Undo: replay the inverted operations in
reverse order, then install the stored before-snapshot as the live
EditorState (not recomputed from the buffer). -/
def UndoRecord.Undo (tab : Nat) (r : UndoRecord) (e : Editor) : Editor :=
  { e with
    mLines := r.mOperations.reverse.foldl (undoOpApply tab) e.mLines,
    mState := r.mBefore }

/-- Embeds TextEditor::UndoRecord::Redo: replay the operations in order,
then install the stored after-snapshot. -/
def UndoRecord.Redo (tab : Nat) (r : UndoRecord) (e : Editor) : Editor :=
  { e with
    mLines := r.mOperations.foldl (redoOpApply tab) e.mLines,
    mState := r.mAfter }

/-- Embeds TextEditor::CanUndo. -/
def CanUndo (e : Editor) : Bool := ¬ e.mReadOnly ∧ e.mUndoIndex > 0

/-- Embeds TextEditor::CanRedo. -/
def CanRedo (e : Editor) : Bool :=
  ¬ e.mReadOnly ∧ e.mUndoIndex < e.mUndoBuffer.length

/-- Embeds TextEditor::Undo(aSteps): while undo is possible and steps
remain, decrement the undo index and replay that record's Undo. -/
def EditorUndo (tab : Nat) : Nat → Editor → Editor
  | 0, e => e
  | steps + 1, e =>
    if CanUndo e then
      EditorUndo tab steps
        ((e.mUndoBuffer.getD (e.mUndoIndex - 1) default).Undo tab
          { e with mUndoIndex := e.mUndoIndex - 1 })
    else e

/-- Embeds TextEditor::Redo(aSteps). -/
def EditorRedo (tab : Nat) : Nat → Editor → Editor
  | 0, e => e
  | steps + 1, e =>
    if CanRedo e then
      EditorRedo tab steps
        ((e.mUndoBuffer.getD e.mUndoIndex default).Redo tab
          { e with mUndoIndex := e.mUndoIndex + 1 })
    else e

/-- Embeds TextEditor::SetText at the editor level: rebuild the buffer and
clear the undo history (mUndoBuffer.clear(), mUndoIndex = 0); the cursor
state is not touched by the source. -/
def EditorSetText (e : Editor) (aText : List Nat) : Editor :=
  { e with mLines := SetText aText, mUndoBuffer := [], mUndoIndex := 0 }

/-- Embeds TextEditor::SetTextLines at the editor level. -/
def EditorSetTextLines (e : Editor) (aLines : List (List Nat)) : Editor :=
  { e with mLines := SetTextLines aLines, mUndoBuffer := [], mUndoIndex := 0 }

/-- C10: after any call to SetText or SetTextLines, the undo buffer is
empty and the undo index is 0, so CanUndo and CanRedo both return false;
hence the undo/redo inverse law never spans such a call. -/
theorem C10_setText_clears_undo_history (e : Editor) (aText : List Nat)
    (aLines : List (List Nat)) :
    (EditorSetText e aText).mUndoBuffer = [] ∧
    (EditorSetText e aText).mUndoIndex = 0 ∧
    CanUndo (EditorSetText e aText) = false ∧
    CanRedo (EditorSetText e aText) = false ∧
    (EditorSetTextLines e aLines).mUndoBuffer = [] ∧
    (EditorSetTextLines e aLines).mUndoIndex = 0 ∧
    CanUndo (EditorSetTextLines e aLines) = false ∧
    CanRedo (EditorSetTextLines e aLines) = false := by
  refine ⟨rfl, rfl, ?_, ?_, rfl, rfl, ?_, ?_⟩ <;>
    simp [CanUndo, CanRedo, EditorSetText, EditorSetTextLines]

theorem setTextLines_ne_nil (aLines : List (List Nat)) :
    SetTextLines aLines ≠ [] := by
  unfold SetTextLines
  by_cases h : aLines.isEmpty
  · rw [if_pos h]; exact List.cons_ne_nil _ _
  · rw [if_neg h]
    intro hnil
    rw [hnil] at h
    exact h rfl

theorem insertTextAtGo_length_le :
    ∀ (n : Nat) (text : List Nat) (lines : Lines) (line cidx : Nat),
      text.length ≤ n →
      lines.length ≤ (insertTextAtGo lines line cidx text).1.length := by
  intro n
  induction n with
  | zero =>
    intro text lines line cidx ht
    obtain rfl : text = [] := List.eq_nil_of_length_eq_zero (Nat.le_zero.mp ht)
    rw [insertTextAtGo]
  | succ n ih =>
    intro text lines line cidx ht
    cases text with
    | nil => rw [insertTextAtGo]
    | cons b rest =>
      have hrest : rest.length ≤ n := by
        simp only [List.length_cons] at ht
        omega
      rw [insertTextAtGo]
      by_cases hb0 : b = 0
      · rw [if_pos hb0]
      · rw [if_neg hb0]
        by_cases hb13 : b = 13
        · rw [if_pos hb13]
          exact ih rest lines line cidx hrest
        · rw [if_neg hb13]
          by_cases hb10 : b = 10
          · rw [if_pos hb10]
            refine le_trans ?_ (ih rest _ (line + 1) 0 hrest)
            by_cases hsplit : cidx < (lines.getD line []).length
            · rw [if_pos hsplit]
              unfold RemoveGlyphsFromLine AddGlyphsToLine InsertLine
              simp only [List.length_set]
              exact List.length_le_length_insertIdx _ _ _
            · rw [if_neg hsplit]
              exact List.length_le_length_insertIdx _ _ _
          · rw [if_neg hb10]
            have hlt :
                ((insChunk (UTF8CharLength b) (b :: rest) (lines.getD line [])
                  cidx).2.2).length < (b :: rest).length :=
              insChunk_stream_lt _ _ rest (lines.getD line []) cidx hb0
                (UTF8CharLength_pos _)
            refine le_trans ?_ (ih _ _ line _ (by
              simp only [List.length_cons] at hlt ht ⊢
              omega))
            rw [List.length_set]

theorem InsertTextAt_ne_nil (tab : Nat) (lines : Lines) (aWhere : Coordinates)
    (aValue : List Nat) (h : lines ≠ []) :
    (InsertTextAt tab lines aWhere aValue).1 ≠ [] := by
  apply List.ne_nil_of_length_pos
  have := insertTextAtGo_length_le aValue.length aValue lines aWhere.mLine
    ((GetCharacterIndexR tab lines aWhere).toNat) (Nat.le_refl _)
  have hpos : 0 < lines.length := List.length_pos.mpr h
  unfold InsertTextAt
  omega

theorem DeleteRange_ne_nil (tab : Nat) (lines : Lines) (aStart aEnd : Coordinates)
    (h : lines ≠ []) : DeleteRange tab lines aStart aEnd ≠ [] := by
  have hpos : 0 < lines.length := List.length_pos.mpr h
  unfold DeleteRange
  by_cases h1 : aEnd = aStart
  · rw [if_pos h1]; exact h
  · rw [if_neg h1]
    by_cases h2 : aStart.mLine = aEnd.mLine
    · rw [if_pos h2]
      by_cases h3 : aEnd.mColumn ≥ GetLineMaxColumn tab lines aStart.mLine
      · rw [if_pos h3]
        apply List.ne_nil_of_length_pos
        simp only [RemoveGlyphsFromLine, List.length_set]
        exact hpos
      · rw [if_neg h3]
        apply List.ne_nil_of_length_pos
        simp only [RemoveGlyphsFromLine, List.length_set]
        exact hpos
    · rw [if_neg h2]
      by_cases h4 : aStart.mLine < aEnd.mLine
      · rw [if_pos h4]
        apply List.ne_nil_of_length_pos
        simp only [RemoveLines, AddGlyphsToLine, RemoveGlyphsFromLine,
          List.length_append, List.length_take, List.length_drop,
          List.length_set]
        omega
      · rw [if_neg h4]
        apply List.ne_nil_of_length_pos
        simp only [RemoveGlyphsFromLine, List.length_set]
        exact hpos

theorem undoOpApply_ne_nil (tab : Nat) (lines : Lines) (op : UndoOperation)
    (h : lines ≠ []) : undoOpApply tab lines op ≠ [] := by
  unfold undoOpApply
  by_cases he : op.mText = []
  · rw [if_pos he]; exact h
  · rw [if_neg he]
    cases op.mType with
    | Delete => exact InsertTextAt_ne_nil tab lines op.mStart op.mText h
    | Add => exact DeleteRange_ne_nil tab lines op.mStart op.mEnd h

theorem redoOpApply_ne_nil (tab : Nat) (lines : Lines) (op : UndoOperation)
    (h : lines ≠ []) : redoOpApply tab lines op ≠ [] := by
  unfold redoOpApply
  by_cases he : op.mText = []
  · rw [if_pos he]; exact h
  · rw [if_neg he]
    cases op.mType with
    | Delete => exact DeleteRange_ne_nil tab lines op.mStart op.mEnd h
    | Add => exact InsertTextAt_ne_nil tab lines op.mStart op.mText h

theorem foldl_undoOpApply_ne_nil (tab : Nat) :
    ∀ (ops : List UndoOperation) (lines : Lines), lines ≠ [] →
      ops.foldl (undoOpApply tab) lines ≠ [] := by
  intro ops
  induction ops with
  | nil => intro lines h; exact h
  | cons op rest ih =>
    intro lines h
    exact ih (undoOpApply tab lines op) (undoOpApply_ne_nil tab lines op h)

theorem foldl_redoOpApply_ne_nil (tab : Nat) :
    ∀ (ops : List UndoOperation) (lines : Lines), lines ≠ [] →
      ops.foldl (redoOpApply tab) lines ≠ [] := by
  intro ops
  induction ops with
  | nil => intro lines h; exact h
  | cons op rest ih =>
    intro lines h
    exact ih (redoOpApply tab lines op) (redoOpApply_ne_nil tab lines op h)

/-- C9: no modelled buffer operation empties the line vector: SetText and
SetTextLines always produce at least one line; insertion, range deletion
(the primitive behind Delete and Backspace), undo-record replay in either
direction, and line insertion preserve non-emptiness unconditionally; and
RemoveLine and RemoveLines keep at least one line under the very size
guards the source asserts (mLines.size() > 1, resp. size > aEnd - aStart). -/
theorem C9_buffer_never_empty :
    (∀ T : List Nat, SetText T ≠ []) ∧
    (∀ L : List (List Nat), SetTextLines L ≠ []) ∧
    (∀ (tab : Nat) (lines : Lines) (w : Coordinates) (t : List Nat),
      lines ≠ [] → (InsertTextAt tab lines w t).1 ≠ []) ∧
    (∀ (tab : Nat) (lines : Lines) (a b : Coordinates),
      lines ≠ [] → DeleteRange tab lines a b ≠ []) ∧
    (∀ (lines : Lines) (i : Nat), lines ≠ [] → InsertLine lines i ≠ []) ∧
    (∀ (lines : Lines) (i : Nat), 1 < lines.length → RemoveLine lines i ≠ []) ∧
    (∀ (lines : Lines) (a b : Nat), b - a < lines.length →
      RemoveLines lines a b ≠ []) ∧
    (∀ (tab : Nat) (r : UndoRecord) (e : Editor), e.mLines ≠ [] →
      (UndoRecord.Undo tab r e).mLines ≠ [] ∧
      (UndoRecord.Redo tab r e).mLines ≠ []) := by
  refine ⟨SetText_ne_nil, setTextLines_ne_nil, InsertTextAt_ne_nil,
    DeleteRange_ne_nil, ?_, ?_, ?_, ?_⟩
  · intro lines i h
    apply List.ne_nil_of_length_pos
    have := List.length_le_length_insertIdx lines ([] : Line) i
    have hpos : 0 < lines.length := List.length_pos.mpr h
    unfold InsertLine
    omega
  · intro lines i h
    apply List.ne_nil_of_length_pos
    have := List.le_length_eraseIdx lines i
    unfold RemoveLine
    omega
  · intro lines a b h
    apply List.ne_nil_of_length_pos
    simp only [RemoveLines, List.length_append, List.length_take,
      List.length_drop]
    omega
  · intro tab r e h
    exact ⟨foldl_undoOpApply_ne_nil tab r.mOperations.reverse e.mLines h,
      foldl_redoOpApply_ne_nil tab r.mOperations e.mLines h⟩

/-- C9 witness: the preservation clauses applied at concrete inputs. -/
theorem C9_buffer_never_empty_witness :
    (InsertTextAt 4 [[97]] ⟨0, 1⟩ [98]).1 ≠ [] ∧
    DeleteRange 4 [[97, 98]] ⟨0, 0⟩ ⟨0, 1⟩ ≠ [] ∧
    RemoveLine [[97], [98]] 0 ≠ [] ∧
    RemoveLines [[97], [98], [99]] 1 3 ≠ [] := by
  refine ⟨C9_buffer_never_empty.2.2.1 4 [[97]] ⟨0, 1⟩ [98] (by decide),
    C9_buffer_never_empty.2.2.2.1 4 [[97, 98]] ⟨0, 0⟩ ⟨0, 1⟩ (by decide),
    C9_buffer_never_empty.2.2.2.2.2.1 [[97], [98]] 0 (by decide),
    C9_buffer_never_empty.2.2.2.2.2.2.1 [[97], [98], [99]] 1 3 (by decide)⟩

/-- Buffer effect of one record replayed forward (the Redo loop body). -/
def redoRec (tab : Nat) (lines : Lines) (r : UndoRecord) : Lines :=
  r.mOperations.foldl (redoOpApply tab) lines

/-- Buffer effect of one record replayed backwards (the Undo loop body). -/
def undoRec (tab : Nat) (lines : Lines) (r : UndoRecord) : Lines :=
  r.mOperations.reverse.foldl (undoOpApply tab) lines

/-- Buffer after replaying a whole record list forward from a buffer. -/
def foldRedoRecords (tab : Nat) (lines : Lines) (records : List UndoRecord) :
    Lines :=
  records.foldl (redoRec tab) lines

/-- Cursor state after an edit sequence: the last record's after-snapshot,
or the initial state for an empty sequence. -/
def stateAfter (S : EditorState) : List UndoRecord → EditorState
  | [] => S
  | r :: rs => stateAfter r.mAfter rs

/-- A record list is a faithful edit history from buffer B and cursor state
S when each record's before-snapshot is the state reached so far and
replaying its operations backwards undoes replaying them forward on the
buffer reached so far — exactly what the recording code establishes for
every record it pushes (each Add operation's coordinates span precisely the
text it inserted, each Delete operation's text is precisely what it removed
at its start). -/
def ChainOK (tab : Nat) : Lines → EditorState → List UndoRecord → Prop
  | _, _, [] => True
  | B, S, r :: rs =>
    r.mBefore = S ∧ undoRec tab (redoRec tab B r) r = B ∧
    ChainOK tab (redoRec tab B r) r.mAfter rs

theorem stateAfter_snoc (r : UndoRecord) :
    ∀ (rs : List UndoRecord) (S : EditorState),
      stateAfter S (rs ++ [r]) = r.mAfter := by
  intro rs
  induction rs with
  | nil => intro S; rfl
  | cons x xs ih => intro S; exact ih x.mAfter

theorem foldRedoRecords_snoc (tab : Nat) (B : Lines) (rs : List UndoRecord)
    (r : UndoRecord) :
    foldRedoRecords tab B (rs ++ [r]) =
      redoRec tab (foldRedoRecords tab B rs) r := by
  unfold foldRedoRecords
  rw [List.foldl_append]
  rfl

theorem chainOK_snoc (tab : Nat) :
    ∀ (rs : List UndoRecord) (r : UndoRecord) (B : Lines) (S : EditorState),
      ChainOK tab B S (rs ++ [r]) ↔
        ChainOK tab B S rs ∧ r.mBefore = stateAfter S rs ∧
        undoRec tab (redoRec tab (foldRedoRecords tab B rs) r) r =
          foldRedoRecords tab B rs := by
  intro rs
  induction rs with
  | nil =>
    intro r B S
    show ChainOK tab B S [r] ↔ _
    unfold ChainOK
    unfold ChainOK
    simp [foldRedoRecords, stateAfter]
  | cons x xs ih =>
    intro r B S
    show ChainOK tab B S (x :: (xs ++ [r])) ↔ _
    unfold ChainOK
    rw [ih]
    have hfold : foldRedoRecords tab B (x :: xs) =
        foldRedoRecords tab (redoRec tab B x) xs := rfl
    have hst : stateAfter S (x :: xs) = stateAfter x.mAfter xs := rfl
    rw [hfold, hst]
    tauto

theorem getD_append_cons (x : UndoRecord) :
    ∀ (pre post : List UndoRecord),
      (pre ++ x :: post).getD pre.length default = x := by
  intro pre
  induction pre with
  | nil => intro post; rfl
  | cons y ys ih =>
    intro post
    simp only [List.cons_append, List.length_cons, List.getD_cons_succ]
    exact ih post

theorem getD_append_append_cons (x : UndoRecord) (pre rs post : List UndoRecord) :
    (pre ++ (rs ++ x :: post)).getD (pre.length + rs.length) default = x := by
  rw [← List.append_assoc]
  have h := getD_append_cons x (pre ++ rs) post
  rwa [List.length_append] at h

theorem editorUndo_chain (tab : Nat) :
    ∀ (records pre post : List UndoRecord) (B : Lines) (S σ : EditorState),
      ChainOK tab B S records → (records = [] → σ = S) →
      EditorUndo tab records.length
        (Editor.mk (foldRedoRecords tab B records) σ (pre ++ (records ++ post))
          (pre.length + records.length) false)
      = Editor.mk B S (pre ++ (records ++ post)) pre.length false := by
  intro records
  induction records using List.reverseRecOn with
  | nil =>
    intro pre post B S σ hchain hS
    have hσ : σ = S := hS rfl
    subst hσ
    rfl
  | append_singleton rs r ih =>
    intro pre post B S σ hchain hS
    rw [chainOK_snoc] at hchain
    obtain ⟨hchain', hbefore, hinv⟩ := hchain
    have hlen : (rs ++ [r]).length = rs.length + 1 := by
      simp
    have hbuf : (rs ++ [r]) ++ post = rs ++ (r :: post) := by
      rw [List.append_assoc]
      rfl
    rw [hlen, hbuf, EditorUndo]
    have hcan : CanUndo
        (Editor.mk (foldRedoRecords tab B (rs ++ [r])) σ
          (pre ++ (rs ++ (r :: post))) (pre.length + (rs.length + 1)) false)
        = true := by
      simp [CanUndo]
    rw [if_pos hcan]
    have hidx : pre.length + (rs.length + 1) - 1 = pre.length + rs.length := by
      omega
    simp only [hidx]
    rw [getD_append_append_cons r pre rs post]
    show EditorUndo tab rs.length
        (Editor.mk (undoRec tab (foldRedoRecords tab B (rs ++ [r])) r)
          r.mBefore (pre ++ (rs ++ (r :: post))) (pre.length + rs.length) false)
      = _
    rw [foldRedoRecords_snoc]
    rw [hinv, hbefore]
    exact ih pre (r :: post) B S (stateAfter S rs) hchain'
      (fun h => by rw [h]; rfl)

theorem editorRedo_chain (tab : Nat) :
    ∀ (records pre post : List UndoRecord) (B : Lines) (S σ : EditorState),
      ChainOK tab B S records →
      EditorRedo tab records.length
        (Editor.mk B σ (pre ++ (records ++ post)) pre.length false)
      = Editor.mk (foldRedoRecords tab B records) (stateAfter σ records)
          (pre ++ (records ++ post)) (pre.length + records.length) false := by
  intro records
  induction records with
  | nil =>
    intro pre post B S σ hchain
    rfl
  | cons r rs ih =>
    intro pre post B S σ hchain
    obtain ⟨hbefore, hinv, hchain'⟩ := hchain
    simp only [List.cons_append, List.length_cons]
    rw [EditorRedo]
    have hcan : CanRedo
        (Editor.mk B σ (pre ++ r :: (rs ++ post)) pre.length false) = true := by
      simp [CanRedo]
    rw [if_pos hcan]
    simp only [getD_append_cons r pre (rs ++ post)]
    show EditorRedo tab rs.length
        (Editor.mk (redoRec tab B r) r.mAfter (pre ++ r :: (rs ++ post))
          (pre.length + 1) false)
      = _
    have hih := ih (pre ++ [r]) post (redoRec tab B r) r.mAfter r.mAfter hchain'
    simp only [List.append_assoc, List.singleton_append, List.length_append,
      List.length_cons, List.length_nil, Nat.zero_add] at hih
    have harith : pre.length + 1 + rs.length = pre.length + (rs.length + 1) := by
      omega
    rw [harith] at hih
    exact hih

/-- C2: for every faithful edit history E1..En recorded from initial buffer
B0 and cursor state S0 (each record's before-snapshot is the state reached so
far and its backwards replay undoes its forward replay, which is what the
recording code establishes for every record it pushes), calling Undo n times
on the post-En editor restores both the buffer and the full EditorState to
exactly (B0, S0), and calling Redo n times after that restores the post-En
buffer and EditorState; the restored state is the stored mBefore/mAfter
snapshot installed by UndoRecord::Undo/Redo, not recomputed from the
buffer. -/
theorem C2_undo_redo_inverse (tab : Nat) (B0 : Lines) (S0 : EditorState)
    (records : List UndoRecord) (hchain : ChainOK tab B0 S0 records) :
    EditorUndo tab records.length
      (Editor.mk (foldRedoRecords tab B0 records) (stateAfter S0 records)
        records records.length false)
      = Editor.mk B0 S0 records 0 false ∧
    EditorRedo tab records.length
      (EditorUndo tab records.length
        (Editor.mk (foldRedoRecords tab B0 records) (stateAfter S0 records)
          records records.length false))
      = Editor.mk (foldRedoRecords tab B0 records) (stateAfter S0 records)
        records records.length false := by
  have hundo := editorUndo_chain tab records [] [] B0 S0 (stateAfter S0 records)
    hchain (fun h => by rw [h]; rfl)
  simp only [List.nil_append, List.append_nil, List.length_nil,
    Nat.zero_add] at hundo
  refine ⟨hundo, ?_⟩
  rw [hundo]
  have hredo := editorRedo_chain tab records [] [] B0 S0 S0 hchain
  simp only [List.nil_append, List.append_nil, List.length_nil,
    Nat.zero_add] at hredo
  exact hredo

def c2S0 : EditorState := ⟨0, 0, [⟨⟨0, 1⟩, ⟨0, 1⟩⟩]⟩

def c2S1 : EditorState := ⟨0, 0, [⟨⟨0, 2⟩, ⟨0, 2⟩⟩]⟩

/-- Concrete one-edit history: typing "b" at (0,1) of the line "a". -/
def c2Rec : UndoRecord :=
  ⟨[⟨[98], ⟨0, 1⟩, ⟨0, 2⟩, UndoOperationType.Add⟩], c2S0, c2S1⟩

theorem c2_redo_eval : redoRec 4 [[97]] c2Rec = [[97, 98]] := by
  have h98 : UTF8CharLength 98 = 1 := by decide
  have h97 : UTF8CharLength 97 = 1 := by decide
  simp [redoRec, c2Rec, redoOpApply, InsertTextAt, GetCharacterIndexR,
    GetCharacterIndexFromColumn, gcifcGo, MoveCharIndexAndColumn,
    insertTextAtGo, insChunk, h97, h98]

set_option maxRecDepth 8000 in
theorem c2_undo_eval : undoRec 4 [[97, 98]] c2Rec = [[97]] := by
  have h98 : UTF8CharLength 98 = 1 := by decide
  have h97 : UTF8CharLength 97 = 1 := by decide
  have hmax : GetLineMaxColumn 4 [[97, 98]] 0 = 2 := by
    unfold GetLineMaxColumn
    rw [if_neg (by norm_num)]
    rw [glmcGo_pos _ _ _ _ (by norm_num)]
    norm_num [h97]
    rw [glmcGo_pos _ _ _ _ (by norm_num)]
    norm_num [h98]
    rw [glmcGo_neg _ _ _ _ (by norm_num)]
  have hL : GetCharacterIndexL 4 [[97, 98]] ⟨0, 1⟩ = 1 := by
    simp [GetCharacterIndexL, GetCharacterIndexFromColumn, gcifcGo,
      MoveCharIndexAndColumn, h97, h98]
  have h2 : DeleteRange 4 [[97, 98]] ⟨0, 1⟩ ⟨0, 2⟩ = [[97]] := by
    simp [DeleteRange, hmax, hL, RemoveGlyphsFromLine]
  exact h2

theorem c2_chain : ChainOK 4 [[97]] c2S0 [c2Rec] := by
  refine ⟨rfl, ?_, trivial⟩
  rw [c2_redo_eval, c2_undo_eval]

/-- C2 witness: the one-edit history of typing "b" into the line "a"; one
Undo restores buffer [["a"]] and state c2S0, one Redo restores the
post-edit editor. -/
theorem C2_undo_redo_inverse_witness :
    EditorUndo 4 [c2Rec].length
      (Editor.mk (foldRedoRecords 4 [[97]] [c2Rec]) (stateAfter c2S0 [c2Rec])
        [c2Rec] [c2Rec].length false)
      = Editor.mk [[97]] c2S0 [c2Rec] 0 false ∧
    EditorRedo 4 [c2Rec].length
      (EditorUndo 4 [c2Rec].length
        (Editor.mk (foldRedoRecords 4 [[97]] [c2Rec]) (stateAfter c2S0 [c2Rec])
          [c2Rec] [c2Rec].length false))
      = Editor.mk (foldRedoRecords 4 [[97]] [c2Rec]) (stateAfter c2S0 [c2Rec])
        [c2Rec] [c2Rec].length false :=
  C2_undo_redo_inverse 4 [[97]] c2S0 [c2Rec] c2_chain

end TextEditor
